import Mathlib

/-!
Verification of the k-means module (src/utee/kmeans.py).

The module is embedded shallowly:
* a torch tensor is a flat row-major `List ℚ` together with its shape
  (rationals idealize the float arithmetic; all structural claims below are
  about exact index/shape behaviour, and the mean computations are exact in ℚ);
* torch runtime failures (assertion failures, broadcasting and scatter shape
  mismatches, out-of-range indices, and the UnboundLocalError raised when a
  local variable is read before assignment) are explicit `KErr` values;
* `torch.randperm` is modelled by an explicit permutation parameter `perm`,
  so every theorem quantifies over the random draw;
* `torch.sqrt` is modelled by `sqrtQ`, which is exact on perfect squares of
  rationals; in every run of the one-dimensional variants the argument is the
  square of a rational, so the model agrees with the code there.
-/

/-- Runtime error values of the embedded functions. -/
inductive KErr where
  | assertErr
  | shapeErr
  | indexErr
  | unboundLocal
deriving DecidableEq

instance {E A : Type _} [DecidableEq E] [DecidableEq A] : DecidableEq (Except E A) := fun a b =>
  match a, b with
  | .ok x, .ok y =>
    if h : x = y then .isTrue (by rw [h]) else .isFalse (fun hc => h (by injection hc))
  | .error e1, .error e2 =>
    if h : e1 = e2 then .isTrue (by rw [h]) else .isFalse (fun hc => h (by injection hc))
  | .ok _, .error _ => .isFalse (fun hc => Except.noConfusion hc)
  | .error _, .ok _ => .isFalse (fun hc => Except.noConfusion hc)

/-- A tensor: shape and flat row-major data. -/
structure Tensor where
  shape : List Nat
  data  : List ℚ
deriving DecidableEq

/-- All multi-indices of a shape, in row-major (lexicographic) order. -/
def allIndices : List Nat → List (List Nat)
  | [] => [[]]
  | n :: s => (List.range n).flatMap (fun i => (allIndices s).map (i :: ·))

/-- Row-major flat position of a multi-index. -/
def flatIdx : List Nat → List Nat → Nat
  | _ :: s, i :: is => i * s.prod + flatIdx s is
  | _, _ => 0

/-- Entry of a tensor at a multi-index (0 out of range). -/
def Tensor.get (t : Tensor) (ix : List Nat) : ℚ := t.data.getD (flatIdx t.shape ix) 0

/-- Source index corresponding to an output index under right-aligned
broadcasting (size-1 dimensions read position 0). -/
def bIdx (s ix : List Nat) : List Nat :=
  ((ix.drop (ix.length - s.length)).zip s).map (fun p => if p.2 = 1 then 0 else p.1)

/-- Broadcast read. -/
def Tensor.getB (t : Tensor) (ix : List Nat) : ℚ := t.get (bIdx t.shape ix)

/-- Build a tensor of a given shape from an entry function. -/
def Tensor.ofFn (s : List Nat) (f : List Nat → ℚ) : Tensor := ⟨s, (allIndices s).map f⟩

/-- Broadcast two reversed shapes (torch/numpy rule, aligned from the right). -/
def bcastRev : List Nat → List Nat → Option (List Nat)
  | [], t => some t
  | s, [] => some s
  | a :: s, b :: t =>
    match bcastRev s t with
    | none => none
    | some r =>
      if a = b then some (a :: r)
      else if a = 1 then some (b :: r)
      else if b = 1 then some (a :: r)
      else none

/-- Broadcast shape of two shapes, `none` when incompatible. -/
def bcastShape (a b : List Nat) : Option (List Nat) :=
  (bcastRev a.reverse b.reverse).map List.reverse

/-- Elementwise binary operation with broadcasting. -/
def ebin (f : ℚ → ℚ → ℚ) (a b : Tensor) : Except KErr Tensor :=
  match bcastShape a.shape b.shape with
  | some s => .ok (Tensor.ofFn s (fun ix => f (a.getB ix) (b.getB ix)))
  | none => .error .shapeErr

/-- Broadcast subtraction, `X - centers`. -/
def tsub (a b : Tensor) : Except KErr Tensor := ebin (· - ·) a b

/-- Broadcast multiplication, `X * one_hot`. -/
def tmul (a b : Tensor) : Except KErr Tensor := ebin (· * ·) a b

/-- Elementwise square, modelling float power by 2.0. -/
def tsquare (t : Tensor) : Tensor := ⟨t.shape, t.data.map (fun q => q ^ 2)⟩

/-- torch squeeze() with no argument: drop every dimension of size one. -/
def squeezeAll (t : Tensor) : Tensor := ⟨t.shape.filter (fun n => decide (n ≠ 1)), t.data⟩

/-- torch squeeze(-1): drop the last dimension when it has size one. -/
def squeezeLast (t : Tensor) : Tensor :=
  if t.shape.getLast? = some 1 then ⟨t.shape.dropLast, t.data⟩ else t

/-- torch unsqueeze(0). -/
def unsqueeze0 (t : Tensor) : Tensor := ⟨1 :: t.shape, t.data⟩

/-- torch unsqueeze(-1). -/
def unsqueezeLast (t : Tensor) : Tensor := ⟨t.shape ++ [1], t.data⟩

/-- torch unsqueeze(1); fails on a 0-dimensional tensor as torch does. -/
def unsqueeze1 (t : Tensor) : Except KErr Tensor :=
  match t.shape with
  | a :: rest => .ok ⟨a :: 1 :: rest, t.data⟩
  | [] => .error .shapeErr

/-- torch transpose(1, 0) on a 2-D tensor. -/
def transpose2 (t : Tensor) : Except KErr Tensor :=
  match t.shape with
  | [a, b] => .ok (Tensor.ofFn [b, a] (fun ix => t.get [ix.getD 1 0, ix.getD 0 0]))
  | _ => .error .shapeErr

/-- torch zeros(n, k). -/
def zerosT (n k : Nat) : Tensor := ⟨[n, k], List.replicate (n * k) 0⟩

/-- Remove a dimension at a position (used by reductions). -/
def eraseAt : Nat → List Nat → List Nat
  | _, [] => []
  | 0, _ :: l => l
  | n + 1, x :: l => x :: eraseAt n l

/-- Insert a coordinate at a position (used by reductions). -/
def insertAt : Nat → Nat → List Nat → List Nat
  | 0, a, l => a :: l
  | _ + 1, a, [] => [a]
  | n + 1, a, x :: l => x :: insertAt n a l

/-- torch sum(dim=d): sums out dimension d. -/
def sumDim (t : Tensor) (d : Nat) : Except KErr Tensor :=
  if d < t.shape.length then
    .ok (Tensor.ofFn (eraseAt d t.shape)
      (fun ix => ((List.range (t.shape.getD d 0)).map (fun j => t.get (insertAt d j ix))).sum))
  else .error .shapeErr

/-- Index of the first minimum of a list (torch argmin tie rule). -/
def argminIdx : List ℚ → Nat
  | [] => 0
  | [_] => 0
  | a :: b :: l =>
    let r := argminIdx (b :: l)
    if a ≤ (b :: l).getD r 0 then 0 else r + 1

/-- Integer value of a (nat-valued) rational index entry. -/
def qToNat (q : ℚ) : Nat := q.num.toNat

/-- torch argmin(t, dim=d); fails when d is out of range or the reduced
dimension is empty. -/
def argminDim (t : Tensor) (d : Nat) : Except KErr Tensor :=
  if d < t.shape.length ∧ 0 < t.shape.getD d 0 then
    .ok (Tensor.ofFn (eraseAt d t.shape)
      (fun ix =>
        (argminIdx ((List.range (t.shape.getD d 0)).map (fun j => t.get (insertAt d j ix))) : ℚ)))
  else .error .shapeErr

/-- torch advanced indexing x[idx] along the first dimension: the result has
shape idx.shape ++ x.shape.tail; fails when an index entry is out of range. -/
def indexT (x idx : Tensor) : Except KErr Tensor :=
  match x.shape with
  | [] => .error .shapeErr
  | n :: rest =>
    if idx.data.all (fun q => decide (0 ≤ q ∧ qToNat q < n)) then
      .ok ⟨idx.shape ++ rest,
        (idx.data.map (fun q => (x.data.drop (qToNat q * rest.prod)).take rest.prod)).flatten⟩
    else .error .indexErr

/-- torch cat([a, b]) along dimension 0. -/
def cat0 (a b : Tensor) : Except KErr Tensor :=
  match a.shape, b.shape with
  | m :: r1, n :: r2 =>
    if r1 = r2 then .ok ⟨(m + n) :: r1, a.data ++ b.data⟩ else .error .shapeErr
  | _, _ => .error .shapeErr

/-- torch nonzero: the multi-indices of the non-zero entries, one per row,
in row-major order. -/
def nonzeroT (t : Tensor) : Tensor :=
  ((allIndices t.shape).filter (fun ix => decide (t.get ix ≠ 0))).length |>
    fun m => ⟨[m, t.shape.length],
      (((allIndices t.shape).filter (fun ix => decide (t.get ix ≠ 0))).map
        (fun ix => ix.map (fun i : Nat => (i : ℚ)))).flatten⟩

/-- torch view(-1): flatten. -/
def viewFlat (t : Tensor) : Tensor := ⟨[t.shape.prod], t.data⟩

/-- one_hot.scatter_(1, index, 1) for a 2-D self and a 2-D index, writing the
constant 1; fails on a rank or bound mismatch as torch does. -/
def scatter1 (self index : Tensor) : Except KErr Tensor :=
  match self.shape, index.shape with
  | [n, k], [m, c] =>
    if m ≤ n ∧ c ≤ k ∧ index.data.all (fun q => decide (0 ≤ q ∧ qToNat q < k)) then
      .ok (Tensor.ofFn [n, k] (fun ix =>
        if ix.getD 0 0 < m ∧
           ((List.range c).any (fun jj => qToNat (index.get [ix.getD 0 0, jj]) == ix.getD 1 0)) = true
        then 1 else self.get ix))
    else .error .indexErr
  | _, _ => .error .shapeErr

/-- Composite of `idx = torch.nonzero(Xsum); Xsum[idx] = 1./Xsum[idx]`: the
reciprocal is written exactly at the non-zero positions, zero entries are left
in place (the divide-by-zero guard of the source). -/
def recipNZ (t : Tensor) : Tensor :=
  ⟨t.shape, t.data.map (fun q => if q = 0 then 0 else 1 / q)⟩

/-- torch.sqrt on ℚ: exact on perfect squares (every use in the 1-D runs is
applied to a square of a rational), 0 otherwise. -/
def sqrtQ (q : ℚ) : ℚ :=
  if 0 ≤ q ∧ Nat.sqrt q.num.toNat * Nat.sqrt q.num.toNat = q.num.toNat ∧
       Nat.sqrt q.den * Nat.sqrt q.den = q.den
  then (Nat.sqrt q.num.toNat : ℚ) / (Nat.sqrt q.den : ℚ) else 0

/-- choose_centers(X, centers): nearest-center assignment, exactly as the
source computes it — transpose/unsqueeze/broadcast subtraction, square,
squeeze, argmin over dimension 1. The asserts of the source are the
`assertErr` branches; torch.cuda.empty_cache() is a no-op. -/
def choose_centers (X centers : Tensor) : Except KErr Tensor := do
  match X.shape, centers.shape with
  | [_, d1], [_, d2] =>
    if d1 = d2 then do
      let cT ← transpose2 centers
      let cT1 := unsqueeze0 cT
      let X1 := unsqueezeLast X
      let diff ← tsub X1 cT1
      let distance := squeezeAll (tsquare diff)
      argminDim distance 1
    else .error .assertErr
  | _, _ => .error .assertErr

/-- forgy_initialization(X, K): `indices = torch.randperm(N)[0:K]` is modelled
by `perm.take K` (slicing clamps, exactly as in python), then X[indices]. -/
def forgy_initialization (X : Tensor) (perm : List Nat) (K : Nat) : Except KErr Tensor :=
  indexT X ⟨[(perm.take K).length], (perm.take K).map (fun i : Nat => (i : ℚ))⟩

/-- One iteration body of the loop shared verbatim by lloyd and lloyd_nnz
(and, over the restricted data, by lloyd_fixed_nnz): assignment, one-hot
scatter, per-cluster sums and counts, guarded reciprocal, new centers, and
the center shift. Returns (choice_cluster, centers, center_shift). -/
def lloydStep (X : Tensor) (N K : Nat) (centers : Tensor) :
    Except KErr (Tensor × Tensor × ℚ) := do
  let choice ← choose_centers X centers
  let centers_old := centers
  let choiceCol ← unsqueeze1 choice
  let one_hot ← scatter1 (zerosT N K) choiceCol
  let XpT ← tmul X one_hot
  let XpS ← sumDim XpT 0
  let Xsum0 ← sumDim one_hot 0
  let Xsum := recipNZ Xsum0
  let prodT ← tmul XpS Xsum
  let centersNew ← unsqueeze1 prodT
  let diff ← tsub centersNew centers_old
  let sums ← sumDim (tsquare diff) 1
  let shift := (sums.data.map sqrtQ).sum
  .ok (choice, centersNew, shift)

/-- The iteration control of lloyd: run the step up to max_iter times and
break when center_shift ** 2 < tol. The first component of the state models
the python local choice_cluster, unbound (`none`) until the first iteration. -/
def lloydLoop (X : Tensor) (N K : Nat) (tol : ℚ) :
    Nat → Option Tensor × Tensor → Except KErr (Option Tensor × Tensor)
  | 0, st => .ok st
  | n + 1, st => do
    let r ← lloydStep X N K st.2
    if r.2.2 * r.2.2 < tol then .ok (some r.1, r.2.1)
    else lloydLoop X N K tol n (some r.1, r.2.1)

/-- lloyd(X, K, tol, max_iter): Forgy initialization followed by the iteration
loop; returning choice_cluster after zero iterations is the python
UnboundLocalError, modelled by `unboundLocal`. The iscuda/verbose parameters
only move buffers and print, and are dropped. -/
def lloyd (X : Tensor) (perm : List Nat) (K : Nat) (tol : ℚ) (max_iter : Nat) :
    Except KErr (Tensor × Tensor) := do
  let centers ← forgy_initialization X perm K
  let st ← lloydLoop X (X.shape.headD 0) K tol max_iter (none, centers)
  match st.1 with
  | some choice => .ok (choice, st.2)
  | none => .error .unboundLocal

/-- forgy_initialization_nnz(X, Xp, K): K-1 rows of X drawn at the non-zero
positions of Xp (randperm over the candidates modelled by `perm`), with one
zero row appended at the end. `perm.dropLast` models the python slice
[0:K-1] when K = 0. -/
def forgy_initialization_nnz (X Xp : Tensor) (perm : List Nat) (K : Nat) :
    Except KErr Tensor := do
  let nnz := nonzeroT (viewFlat Xp)
  let idxs := if K = 0 then perm.dropLast else perm.take (K - 1)
  let idx0 ← indexT nnz ⟨[idxs.length], idxs.map (fun i : Nat => (i : ℚ))⟩
  let sel ← indexT X (squeezeAll idx0)
  cat0 sel ⟨[1, 1], [0]⟩

/-- lloyd_nnz(X, Xp, K, ...): same loop as lloyd, non-zero-restricted
initialization. -/
def lloyd_nnz (X Xp : Tensor) (perm : List Nat) (K : Nat) (tol : ℚ) (max_iter : Nat) :
    Except KErr (Tensor × Tensor) := do
  let centers ← forgy_initialization_nnz X Xp perm K
  let st ← lloydLoop X (X.shape.headD 0) K tol max_iter (none, centers)
  match st.1 with
  | some choice => .ok (choice, st.2)
  | none => .error .unboundLocal

/-- centers[:K] = src[:K]: overwrite the first K rows, keep the rest. -/
def sliceAssignRows (old src : Tensor) (K : Nat) : Except KErr Tensor :=
  match old.shape, src.shape with
  | m :: r1, m2 :: r2 =>
    if min K m = min K m2 ∧ r1 = r2 then
      .ok ⟨old.shape, (src.data.take (min K m2 * r2.prod)) ++ (old.data.drop (min K m * r1.prod))⟩
    else .error .shapeErr
  | _, _ => .error .shapeErr

/-- Iteration body of lloyd_nnz_fixed_0_center: identical to lloydStep over
K+1 clusters except that only centers[:K] is overwritten; the shift is then
computed from the partially updated centers, as in the source. -/
def lloydStepFixed (X : Tensor) (N K : Nat) (centers : Tensor) :
    Except KErr (Tensor × Tensor × ℚ) := do
  let choice ← choose_centers X centers
  let centers_old := centers
  let choiceCol ← unsqueeze1 choice
  let one_hot ← scatter1 (zerosT N (K + 1)) choiceCol
  let XpT ← tmul X one_hot
  let XpS ← sumDim XpT 0
  let Xsum0 ← sumDim one_hot 0
  let Xsum := recipNZ Xsum0
  let prodT ← tmul XpS Xsum
  let centersNew ← unsqueeze1 prodT
  let centersAsg ← sliceAssignRows centers_old centersNew K
  let diff ← tsub centersAsg centers_old
  let sums ← sumDim (tsquare diff) 1
  let shift := (sums.data.map sqrtQ).sum
  .ok (choice, centersAsg, shift)

/-- Iteration control of lloyd_nnz_fixed_0_center. -/
def lloydLoopFixed (X : Tensor) (N K : Nat) (tol : ℚ) :
    Nat → Option Tensor × Tensor → Except KErr (Option Tensor × Tensor)
  | 0, st => .ok st
  | n + 1, st => do
    let r ← lloydStepFixed X N K st.2
    if r.2.2 * r.2.2 < tol then .ok (some r.1, r.2.1)
    else lloydLoopFixed X N K tol n (some r.1, r.2.1)

/-- lloyd_nnz_fixed_0_center(X, Xp, K, ...): K+1 centers initialized by
forgy_initialization_nnz with K+1, loop updating only the first K centers. -/
def lloyd_nnz_fixed_0_center (X Xp : Tensor) (perm : List Nat) (K : Nat) (tol : ℚ)
    (max_iter : Nat) : Except KErr (Tensor × Tensor) := do
  let centers ← forgy_initialization_nnz X Xp perm (K + 1)
  let st ← lloydLoopFixed X (X.shape.headD 0) K tol max_iter (none, centers)
  match st.1 with
  | some choice => .ok (choice, st.2)
  | none => .error .unboundLocal

/-- forgy_initialization_fixed_nnz(X, Xp, K): K-1 rows of X drawn at the
non-zero positions of Xp, with no zero row appended. -/
def forgy_initialization_fixed_nnz (X Xp : Tensor) (perm : List Nat) (K : Nat) :
    Except KErr Tensor := do
  let nnz := nonzeroT (viewFlat Xp)
  let idxs := if K = 0 then perm.dropLast else perm.take (K - 1)
  let idx0 ← indexT nnz ⟨[idxs.length], idxs.map (fun i : Nat => (i : ℚ))⟩
  indexT X (squeezeAll idx0)

/-- nnz_idx = torch.nonzero(Xp.squeeze()) of lloyd_fixed_nnz. -/
def nnzIndexOf (Xp : Tensor) : Tensor := nonzeroT (squeezeAll Xp)

/-- lloyd_fixed_nnz(X, Xp, K, ...): the whole computation restricted to the
non-zero rows of Xp, with K-1 centers; the loop is the shared body over
Xnnz = X[nnz_idx].squeeze(-1). -/
def lloyd_fixed_nnz (X Xp : Tensor) (perm : List Nat) (K : Nat) (tol : ℚ)
    (max_iter : Nat) : Except KErr (Tensor × Tensor) := do
  let centers ← forgy_initialization_fixed_nnz X Xp perm K
  let nnz_idx := nnzIndexOf Xp
  let Xnnz0 ← indexT X nnz_idx
  let Xnnz := squeezeLast Xnnz0
  let st ← lloydLoop Xnnz (nnz_idx.shape.headD 0) (K - 1) tol max_iter (none, centers)
  match st.1 with
  | some choice => .ok (choice, st.2)
  | none => .error .unboundLocal

/-- Row i of a tensor, as a list. -/
def getRow (t : Tensor) (i : Nat) : List ℚ :=
  (t.data.drop (i * t.shape.tail.prod)).take t.shape.tail.prod

/-- Squared Euclidean distance of two rows. -/
def sqDist (x c : List ℚ) : ℚ := ((x.zip c).map (fun p => (p.1 - p.2) ^ 2)).sum

/-- Cluster index assigned to point i by an assignment tensor. -/
def assignVal (a : Tensor) (i : Nat) : Nat := qToNat (a.data.getD i 0)

/-- Number of points an assignment tensor sends to cluster k. -/
def countAssigned (a : Tensor) (k : Nat) : Nat :=
  a.data.countP (fun q => decide (qToNat q = k))

/-! ### Canonical tensor forms and index lemmas -/

/-- A 1-D tensor given by an entry function. -/
def vecT (n : Nat) (h : Nat → ℚ) : Tensor := ⟨[n], (List.range n).map h⟩

/-- An n-by-1 tensor given by an entry function. -/
def colT (n : Nat) (h : Nat → ℚ) : Tensor := ⟨[n, 1], (List.range n).map h⟩

/-- An n-by-k tensor given by an entry function. -/
def matT (n k : Nat) (h : Nat → Nat → ℚ) : Tensor :=
  ⟨[n, k], (List.range n).flatMap (fun i => (List.range k).map (h i))⟩

/-- Pointwise validity of a multi-index for a shape. -/
def validIx : List Nat → List Nat → Prop
  | [], [] => True
  | n :: s, i :: ix => i < n ∧ validIx s ix
  | _, _ => False

theorem getD_map_range {n i : Nat} (h : Nat → ℚ) (hi : i < n) :
    ((List.range n).map h).getD i 0 = h i := by
  rw [List.getD_eq_getElem?_getD, List.getElem?_map, List.getElem?_range hi]
  rfl

theorem getElem_flatMap_block {α β : Type _} (l : List α) (f : α → List β) (L i r : Nat)
    (hL : ∀ a ∈ l, (f a).length = L) (hi : i < l.length) (hr : r < L) :
    (l.flatMap f)[i * L + r]? = (f (l.get ⟨i, hi⟩))[r]? := by
  induction l generalizing i with
  | nil => simp at hi
  | cons a l ih =>
    cases i with
    | zero =>
      have ha : (f a).length = L := hL a (List.mem_cons_self a l)
      simp only [List.flatMap_cons, Nat.zero_mul, Nat.zero_add]
      rw [List.getElem?_append]
      simp [ha, hr]
    | succ i =>
      have ha : (f a).length = L := hL a (List.mem_cons_self a l)
      have hil : i < l.length := by simpa using hi
      have harith : (i + 1) * L + r = (f a).length + (i * L + r) := by
        rw [ha]; ring
      simp only [List.flatMap_cons, harith]
      rw [List.getElem?_append_right (Nat.le_add_right _ _)]
      rw [Nat.add_sub_cancel_left]
      exact ih i (fun b hb => hL b (List.mem_cons_of_mem a hb)) hil

theorem allIndices_length (s : List Nat) : (allIndices s).length = s.prod := by
  induction s with
  | nil => simp [allIndices]
  | cons n s ih =>
    simp only [allIndices, List.length_flatMap, List.prod_cons]
    have h1 : (List.map (List.length ∘ fun i => (allIndices s).map (i :: ·)) (List.range n))
        = (List.range n).map (fun _ => s.prod) := by
      apply List.map_congr_left
      intro i _
      simp [Function.comp, ih]
    rw [h1, List.map_const', List.sum_replicate, smul_eq_mul, List.length_range]

theorem flatIdx_lt (s ix : List Nat) (h : validIx s ix) : flatIdx s ix < s.prod := by
  induction s generalizing ix with
  | nil =>
    cases ix with
    | nil => simp [flatIdx]
    | cons i ix => exact absurd h (by simp [validIx])
  | cons n s ih =>
    cases ix with
    | nil => exact absurd h (by simp [validIx])
    | cons i ix =>
      obtain ⟨hi, hrest⟩ := h
      have hr := ih ix hrest
      have hflat : flatIdx (n :: s) (i :: ix) = i * s.prod + flatIdx s ix := rfl
      rw [hflat, List.prod_cons]
      calc i * s.prod + flatIdx s ix < i * s.prod + s.prod := by omega
    _ = (i + 1) * s.prod := by ring
    _ ≤ n * s.prod := Nat.mul_le_mul_right _ hi

theorem allIndices_getD (s ix : List Nat) (h : validIx s ix) :
    (allIndices s)[flatIdx s ix]? = some ix := by
  induction s generalizing ix with
  | nil =>
    cases ix with
    | nil => simp [allIndices, flatIdx]
    | cons i ix => exact absurd h (by simp [validIx])
  | cons n s ih =>
    cases ix with
    | nil => exact absurd h (by simp [validIx])
    | cons i ix =>
      obtain ⟨hi, hrest⟩ := h
      have hflat : flatIdx (n :: s) (i :: ix) = i * s.prod + flatIdx s ix := rfl
      have hlen : ∀ a ∈ List.range n, ((allIndices s).map (a :: ·)).length = s.prod := by
        intro a _
        simp [allIndices_length]
      have hbound : flatIdx s ix < s.prod := flatIdx_lt s ix hrest
      rw [hflat, allIndices]
      rw [getElem_flatMap_block (List.range n) _ s.prod i (flatIdx s ix) hlen (by simpa using hi) hbound]
      have hget : (List.range n).get ⟨i, by simpa using hi⟩ = i := by simp
      rw [hget, List.getElem?_map, ih ix hrest]
      rfl

theorem get_ofFn (s : List Nat) (f : List Nat → ℚ) (ix : List Nat) (h : validIx s ix) :
    (Tensor.ofFn s f).get ix = f ix := by
  unfold Tensor.ofFn Tensor.get
  simp only [List.getD_eq_getElem?_getD, List.getElem?_map, allIndices_getD s ix h]
  rfl

theorem ofFn_data_length (s : List Nat) (f : List Nat → ℚ) :
    (Tensor.ofFn s f).data.length = s.prod := by
  simp [Tensor.ofFn, allIndices_length]

theorem allIndices_one (n : Nat) : allIndices [n] = (List.range n).map (fun i => [i]) := by
  have h1 : allIndices [n] = (List.range n).flatMap (fun i => [[i]]) := rfl
  rw [h1]
  exact (List.map_eq_flatMap _ _).symm

theorem allIndices_two (n k : Nat) :
    allIndices [n, k] = (List.range n).flatMap (fun i => (List.range k).map (fun j => [i, j])) := by
  have h1 : allIndices [n, k] = (List.range n).flatMap (fun i => (allIndices [k]).map (i :: ·)) := rfl
  rw [h1, allIndices_one]
  apply List.flatMap_congr
  intro i _
  rw [List.map_map]
  rfl

theorem allIndices_col (n : Nat) : allIndices [n, 1] = (List.range n).map (fun i => [i, 0]) := by
  rw [allIndices_two]
  have h1 : List.range 1 = [0] := rfl
  rw [h1]
  have h2 : ∀ i ∈ List.range n, ([0].map (fun j => [i, j])) = [[i, 0]] := by
    intro i _
    rfl
  rw [List.flatMap_congr h2]
  exact (List.map_eq_flatMap _ _).symm

theorem allIndices_n1k (n k : Nat) :
    allIndices [n, 1, k]
      = (List.range n).flatMap (fun i => (List.range k).map (fun j => [i, 0, j])) := by
  have h1 : allIndices [n, 1, k]
      = (List.range n).flatMap (fun i => (allIndices [1, k]).map (i :: ·)) := rfl
  have h2 : allIndices [1, k] = (List.range k).map (fun j => [0, j]) := by
    rw [allIndices_two]
    have h3 : List.range 1 = [0] := rfl
    rw [h3]
    simp
  rw [h1, h2]
  apply List.flatMap_congr
  intro i _
  rw [List.map_map]
  rfl

theorem ofFn_vec (n : Nat) (f : List Nat → ℚ) (h : Nat → ℚ)
    (he : ∀ i < n, f [i] = h i) : Tensor.ofFn [n] f = vecT n h := by
  unfold Tensor.ofFn vecT
  simp only [allIndices_one, List.map_map]
  congr 1
  apply List.map_congr_left
  intro i hi
  exact he i (List.mem_range.mp hi)

theorem ofFn_col (n : Nat) (f : List Nat → ℚ) (h : Nat → ℚ)
    (he : ∀ i < n, f [i, 0] = h i) : Tensor.ofFn [n, 1] f = colT n h := by
  unfold Tensor.ofFn colT
  simp only [allIndices_col, List.map_map]
  congr 1
  apply List.map_congr_left
  intro i hi
  exact he i (List.mem_range.mp hi)

theorem ofFn_mat (n k : Nat) (f : List Nat → ℚ) (h : Nat → Nat → ℚ)
    (he : ∀ i < n, ∀ j < k, f [i, j] = h i j) : Tensor.ofFn [n, k] f = matT n k h := by
  unfold Tensor.ofFn matT
  simp only [allIndices_two]
  congr 1
  rw [List.map_flatMap]
  apply List.flatMap_congr
  intro i hi
  rw [List.map_map]
  apply List.map_congr_left
  intro j hj
  exact he i (List.mem_range.mp hi) j (List.mem_range.mp hj)

theorem kbind_ok {α β : Type _} (a : α) (f : α → Except KErr β) :
    (Except.ok a >>= f : Except KErr β) = f a := rfl

theorem kbind_err {α β : Type _} (e : KErr) (f : α → Except KErr β) :
    ((Except.error e : Except KErr α) >>= f) = .error e := rfl

theorem vecT_getD {n i : Nat} (h : Nat → ℚ) (hi : i < n) :
    (vecT n h).data.getD i 0 = h i := getD_map_range h hi

theorem vecT_get {n i : Nat} (h : Nat → ℚ) (hi : i < n) : (vecT n h).get [i] = h i := by
  have hf : flatIdx [n] [i] = i := by simp [flatIdx]
  unfold vecT Tensor.get
  simp only [hf]
  exact getD_map_range h hi

theorem colT_get {n i : Nat} (h : Nat → ℚ) (hi : i < n) : (colT n h).get [i, 0] = h i := by
  have hf : flatIdx [n, 1] [i, 0] = i := by simp [flatIdx]
  unfold colT Tensor.get
  simp only [hf]
  exact getD_map_range h hi

theorem matT_get {n k i j : Nat} (h : Nat → Nat → ℚ) (hi : i < n) (hj : j < k) :
    (matT n k h).get [i, j] = h i j := by
  have hf : flatIdx [n, k] [i, j] = i * k + j := by simp [flatIdx]
  unfold matT Tensor.get
  simp only [hf, List.getD_eq_getElem?_getD]
  rw [getElem_flatMap_block (List.range n) _ k i j (by intro a _; simp) (by simpa using hi) hj]
  have hget : (List.range n).get ⟨i, by simpa using hi⟩ = i := by simp
  rw [hget, List.getElem?_map, List.getElem?_range hj]
  rfl

theorem colT_getRow {n i : Nat} (h : Nat → ℚ) (hi : i < n) :
    getRow (colT n h) i = [h i] := by
  unfold getRow colT
  simp only [List.tail_cons, List.prod_cons, List.prod_nil, mul_one, one_mul]
  have hlen : i < ((List.range n).map h).length := by simpa using hi
  rw [List.drop_eq_getElem_cons hlen]
  simp only [List.take_succ_cons, List.take_zero]
  congr 1
  rw [List.getElem_map]
  congr 1
  simp

/-! ### argmin lemmas -/

theorem argminIdx_lt (l : List ℚ) (h : l ≠ []) : argminIdx l < l.length := by
  induction l with
  | nil => exact absurd rfl h
  | cons a t ih =>
    cases t with
    | nil => simp [argminIdx]
    | cons b t2 =>
      simp only [argminIdx]
      split
      · simp
      · have := ih (by simp)
        simpa using this

theorem argminIdx_le (l : List ℚ) (j : Nat) (hj : j < l.length) :
    l.getD (argminIdx l) 0 ≤ l.getD j 0 := by
  induction l generalizing j with
  | nil => simp at hj
  | cons a t ih =>
    cases t with
    | nil =>
      have hj0 : j = 0 := by simpa using hj
      subst hj0
      simp [argminIdx]
    | cons b t2 =>
      simp only [argminIdx]
      split
      · rename_i hc
        cases j with
        | zero => simp
        | succ j =>
          have hj2 : j < (b :: t2).length := by simpa using hj
          calc (a :: b :: t2).getD 0 0 = a := rfl
          _ ≤ (b :: t2).getD (argminIdx (b :: t2)) 0 := hc
          _ ≤ (b :: t2).getD j 0 := ih j hj2
          _ = (a :: b :: t2).getD (j + 1) 0 := rfl
      · rename_i hc
        push_neg at hc
        cases j with
        | zero =>
          calc (a :: b :: t2).getD (argminIdx (b :: t2) + 1) 0
              = (b :: t2).getD (argminIdx (b :: t2)) 0 := rfl
          _ ≤ a := le_of_lt hc
          _ = (a :: b :: t2).getD 0 0 := rfl
        | succ j =>
          have hj2 : j < (b :: t2).length := by simpa using hj
          exact ih j hj2

theorem argminIdx_first (l : List ℚ) (j : Nat) (hj : j < argminIdx l) :
    l.getD (argminIdx l) 0 < l.getD j 0 := by
  induction l generalizing j with
  | nil => simp [argminIdx] at hj
  | cons a t ih =>
    cases t with
    | nil => simp [argminIdx] at hj
    | cons b t2 =>
      simp only [argminIdx] at hj ⊢
      split
      · rename_i hc
        rw [if_pos hc] at hj
        exact absurd hj (Nat.not_lt_zero j)
      · rename_i hc
        rw [if_neg hc] at hj
        push_neg at hc
        cases j with
        | zero => exact hc
        | succ j =>
          have hj2 : j < argminIdx (b :: t2) := by omega
          exact ih j hj2

/-! ### broadcast-shape computations -/

theorem bcast_Nn1 (N M : Nat) : bcastShape [N, 1, 1] [1, 1, M] = some [N, 1, M] := by
  by_cases hN : N = 1 <;> by_cases hM : M = 1 <;>
    simp [bcastShape, bcastRev, hN, hM]

theorem bcast_N1_NK (N K : Nat) : bcastShape [N, 1] [N, K] = some [N, K] := by
  by_cases hK : K = 1 <;> simp [bcastShape, bcastRev, hK]

theorem bcast_vec (K : Nat) : bcastShape [K] [K] = some [K] := by
  simp [bcastShape, bcastRev]

theorem bcast_col (K : Nat) : bcastShape [K, 1] [K, 1] = some [K, 1] := by
  simp [bcastShape, bcastRev]

theorem bcast_col_ne (K M : Nat) (hKM : K ≠ M) (hK : K ≠ 1) (hM : M ≠ 1) :
    bcastShape [K, 1] [M, 1] = none := by
  simp [bcastShape, bcastRev, hKM, hK, hM]

theorem ebin_eq (f : ℚ → ℚ → ℚ) (a b : Tensor) (s : List Nat)
    (h : bcastShape a.shape b.shape = some s) :
    ebin f a b = .ok (Tensor.ofFn s (fun ix => f (a.getB ix) (b.getB ix))) := by
  unfold ebin
  rw [h]

theorem ebin_none (f : ℚ → ℚ → ℚ) (a b : Tensor)
    (h : bcastShape a.shape b.shape = none) : ebin f a b = .error .shapeErr := by
  unfold ebin
  rw [h]

theorem allIndices_1k (k : Nat) : allIndices [1, k] = (List.range k).map (fun j => [0, j]) := by
  rw [allIndices_two]
  have h3 : List.range 1 = [0] := rfl
  rw [h3]
  simp

theorem qToNat_cast (n : Nat) : qToNat (n : ℚ) = n := by
  unfold qToNat
  rw [Rat.num_natCast]
  exact Int.toNat_natCast n

theorem getD_replicate0 (n i : Nat) : (List.replicate n (0 : ℚ)).getD i 0 = 0 := by
  induction n generalizing i with
  | zero => simp
  | succ n ih =>
    cases i with
    | zero => simp [List.replicate]
    | succ i => simp [List.replicate, ih i]


theorem ofFn_shape (s : List Nat) (f : List Nat → ℚ) : (Tensor.ofFn s f).shape = s := rfl

theorem ofFn_data (s : List Nat) (f : List Nat → ℚ) :
    (Tensor.ofFn s f).data = (allIndices s).map f := rfl

theorem matT_shape (n k : Nat) (h : Nat → Nat → ℚ) : (matT n k h).shape = [n, k] := rfl

theorem vecT_shape (n : Nat) (h : Nat → ℚ) : (vecT n h).shape = [n] := rfl

theorem colT_shape (n : Nat) (h : Nat → ℚ) : (colT n h).shape = [n, 1] := rfl

theorem vecT_data_length (n : Nat) (h : Nat → ℚ) : (vecT n h).data.length = n := by
  simp [vecT]

theorem colT_data_length (n : Nat) (h : Nat → ℚ) : (colT n h).data.length = n := by
  simp [colT]

/-! ### Specifications of the tensor operations on the shapes arising in the
one-dimensional runs -/

theorem argminDim_mat (n k : Nat) (h : Nat → Nat → ℚ) (hk : 0 < k) :
    argminDim (matT n k h) 1
      = .ok (vecT n (fun i => (argminIdx ((List.range k).map (h i)) : ℚ))) := by
  have hcond : 1 < (matT n k h).shape.length ∧ 0 < (matT n k h).shape.getD 1 0 := by
    constructor
    · simp [matT_shape]
    · simpa [matT_shape] using hk
  unfold argminDim
  rw [if_pos hcond]
  apply congrArg
  have her : eraseAt 1 (matT n k h).shape = [n] := by simp [matT_shape, eraseAt]
  rw [her]
  apply ofFn_vec
  intro i hi
  have hgd : (matT n k h).shape.getD 1 0 = k := by simp [matT_shape]
  rw [hgd]
  apply congrArg
  apply congrArg
  apply List.map_congr_left
  intro j hj
  have hins : insertAt 1 j [i] = [i, j] := by simp [insertAt]
  rw [hins]
  exact matT_get h hi (List.mem_range.mp hj)

theorem sumDim0_mat (n k : Nat) (h : Nat → Nat → ℚ) :
    sumDim (matT n k h) 0
      = .ok (vecT k (fun j => ((List.range n).map (fun i => h i j)).sum)) := by
  have hcond : 0 < (matT n k h).shape.length := by simp [matT_shape]
  unfold sumDim
  rw [if_pos hcond]
  apply congrArg
  have her : eraseAt 0 (matT n k h).shape = [k] := by simp [matT_shape, eraseAt]
  rw [her]
  apply ofFn_vec
  intro j hj
  have hgd : (matT n k h).shape.getD 0 0 = n := by simp [matT_shape]
  rw [hgd]
  apply congrArg
  apply List.map_congr_left
  intro i hi
  have hins : insertAt 0 i [j] = [i, j] := by simp [insertAt]
  rw [hins]
  exact matT_get h (List.mem_range.mp hi) hj

theorem sumDim1_col (n : Nat) (h : Nat → ℚ) :
    sumDim (colT n h) 1 = .ok (vecT n h) := by
  have hcond : 1 < (colT n h).shape.length := by simp [colT_shape]
  unfold sumDim
  rw [if_pos hcond]
  apply congrArg
  have her : eraseAt 1 (colT n h).shape = [n] := by simp [colT_shape, eraseAt]
  rw [her]
  apply ofFn_vec
  intro i hi
  have hgd : (colT n h).shape.getD 1 0 = 1 := by simp [colT_shape]
  rw [hgd]
  have hr1 : List.range 1 = [0] := rfl
  rw [hr1]
  have hins : insertAt 1 0 [i] = [i, 0] := by simp [insertAt]
  simp only [List.map_cons, List.map_nil, List.sum_cons, List.sum_nil, add_zero, hins]
  exact colT_get h hi

theorem tsquare_col (n : Nat) (h : Nat → ℚ) :
    tsquare (colT n h) = colT n (fun i => h i ^ 2) := by
  unfold tsquare colT
  simp [List.map_map]

theorem tsub_col (K : Nat) (h : Nat → ℚ) (c : List ℚ) (hK1 : K ≠ 1) :
    tsub (colT K h) ⟨[K, 1], c⟩ = .ok (colT K (fun j => h j - c.getD j 0)) := by
  have hb : bcastShape (colT K h).shape (Tensor.mk [K, 1] c).shape = some [K, 1] := by
    simpa [colT_shape] using bcast_col K
  unfold tsub
  rw [ebin_eq _ _ _ _ hb]
  apply congrArg
  apply ofFn_col
  intro j hj
  have hbix : bIdx [K, 1] [j, 0] = [j, 0] := by simp [bIdx, hK1]
  have h1 : (colT K h).getB [j, 0] = h j := by
    show (colT K h).get (bIdx [K, 1] [j, 0]) = h j
    rw [hbix]
    exact colT_get h hj
  have h2 : (Tensor.mk [K, 1] c).getB [j, 0] = c.getD j 0 := by
    show (Tensor.mk [K, 1] c).get (bIdx [K, 1] [j, 0]) = c.getD j 0
    rw [hbix]
    show c.getD (flatIdx [K, 1] [j, 0]) 0 = c.getD j 0
    have hf : flatIdx [K, 1] [j, 0] = j := by simp [flatIdx]
    rw [hf]
  rw [h1, h2]

theorem tmul_vec (K : Nat) (h1 h2 : Nat → ℚ) (hK1 : K ≠ 1) :
    tmul (vecT K h1) (vecT K h2) = .ok (vecT K (fun j => h1 j * h2 j)) := by
  have hb : bcastShape (vecT K h1).shape (vecT K h2).shape = some [K] := by
    simpa [vecT_shape] using bcast_vec K
  unfold tmul
  rw [ebin_eq _ _ _ _ hb]
  apply congrArg
  apply ofFn_vec
  intro j hj
  have hbix : bIdx [K] [j] = [j] := by simp [bIdx, hK1]
  have e1 : (vecT K h1).getB [j] = h1 j := by
    show (vecT K h1).get (bIdx [K] [j]) = h1 j
    rw [hbix]
    exact vecT_get h1 hj
  have e2 : (vecT K h2).getB [j] = h2 j := by
    show (vecT K h2).get (bIdx [K] [j]) = h2 j
    rw [hbix]
    exact vecT_get h2 hj
  rw [e1, e2]

theorem recipNZ_vec (K : Nat) (h : Nat → ℚ) :
    recipNZ (vecT K h) = vecT K (fun j => if h j = 0 then 0 else 1 / h j) := by
  unfold recipNZ vecT
  simp [List.map_map]

theorem unsqueeze1_vec (n : Nat) (h : Nat → ℚ) : unsqueeze1 (vecT n h) = .ok (colT n h) := rfl

theorem tmul_X_mat (N K : Nat) (x : List ℚ) (h : Nat → Nat → ℚ) (hN1 : N ≠ 1) (hK1 : K ≠ 1) :
    tmul ⟨[N, 1], x⟩ (matT N K h)
      = .ok (matT N K (fun i j => x.getD i 0 * h i j)) := by
  have hb : bcastShape (Tensor.mk [N, 1] x).shape (matT N K h).shape = some [N, K] := by
    simpa [matT_shape] using bcast_N1_NK N K
  unfold tmul
  rw [ebin_eq _ _ _ _ hb]
  apply congrArg
  apply ofFn_mat
  intro i hi j hj
  have e1 : (Tensor.mk [N, 1] x).getB [i, j] = x.getD i 0 := by
    have hbix : bIdx [N, 1] [i, j] = [i, 0] := by simp [bIdx, hN1]
    show (Tensor.mk [N, 1] x).get (bIdx [N, 1] [i, j]) = x.getD i 0
    rw [hbix]
    show x.getD (flatIdx [N, 1] [i, 0]) 0 = x.getD i 0
    have hf : flatIdx [N, 1] [i, 0] = i := by simp [flatIdx]
    rw [hf]
  have e2 : (matT N K h).getB [i, j] = h i j := by
    have hbix : bIdx [N, K] [i, j] = [i, j] := by simp [bIdx, hN1, hK1]
    show (matT N K h).get (bIdx [N, K] [i, j]) = h i j
    rw [hbix]
    exact matT_get h hi hj
  rw [e1, e2]

theorem zerosT_shape (n k : Nat) : (zerosT n k).shape = [n, k] := rfl

/-- Nearest-center index of point i (d = 1): first argmin over the M squared
distances. -/
def nearest (x c : List ℚ) (M i : Nat) : Nat :=
  argminIdx ((List.range M).map (fun k => (x.getD i 0 - c.getD k 0) ^ 2))

/-- One-hot indicator entry. -/
def indQ (a b : Nat) : ℚ := if a = b then 1 else 0

/-- Per-cluster sum of assigned points, as the update step computes it. -/
def csum (x : List ℚ) (g : Nat → Nat) (N j : Nat) : ℚ :=
  ((List.range N).map (fun i => x.getD i 0 * indQ (g i) j)).sum

/-- Per-cluster count of assigned points. -/
def ccnt (g : Nat → Nat) (N j : Nat) : ℚ :=
  ((List.range N).map (fun i => indQ (g i) j)).sum

/-- The guarded reciprocal of the update step. -/
def recipQ (q : ℚ) : ℚ := if q = 0 then 0 else 1 / q

/-- Center value produced by one update step: sum times guarded reciprocal
of the count. -/
def newCtrs (x c : List ℚ) (N M j : Nat) : ℚ :=
  csum x (nearest x c M) N j * recipQ (ccnt (nearest x c M) N j)

theorem scatter1_col (N K : Nat) (g : Nat → Nat) (hg : ∀ i < N, g i < K) (hK0 : 0 < K) :
    scatter1 (zerosT N K) (colT N (fun i => (g i : ℚ)))
      = .ok (matT N K (fun i j => if g i = j then 1 else 0)) := by
  have hall : (colT N (fun i => (g i : ℚ))).data.all
      (fun q => decide (0 ≤ q ∧ qToNat q < K)) = true := by
    rw [List.all_eq_true]
    intro q hq
    simp only [colT] at hq
    rcases List.mem_map.mp hq with ⟨i, hi, rfl⟩
    have hiN : i < N := List.mem_range.mp hi
    simp [qToNat_cast, hg i hiN]
  have hcond : N ≤ N ∧ 1 ≤ K ∧ (colT N (fun i => (g i : ℚ))).data.all
      (fun q => decide (0 ≤ q ∧ qToNat q < K)) = true := ⟨le_refl N, hK0, hall⟩
  unfold scatter1
  simp only [zerosT_shape, colT_shape]
  rw [if_pos hcond]
  apply congrArg
  apply ofFn_mat
  intro i hi j hj
  simp only [List.getD_cons_zero, List.getD_cons_succ]
  have hget : (colT N (fun i => (g i : ℚ))).get [i, 0] = (g i : ℚ) := colT_get _ hi
  have hr1 : List.range 1 = [0] := rfl
  rw [hr1]
  simp only [List.any_cons, List.any_nil, Bool.or_false, hget]
  have hq : qToNat ((g i : Nat) : ℚ) = g i := qToNat_cast (g i)
  rw [hq]
  by_cases hgij : g i = j
  · rw [if_pos]
    · rw [if_pos hgij]
    · exact ⟨hi, by simpa using hgij⟩
  · rw [if_neg, if_neg hgij]
    · show (zerosT N K).get [i, j] = 0
      show (List.replicate (N * K) (0 : ℚ)).getD (flatIdx [N, K] [i, j]) 0 = 0
      exact getD_replicate0 _ _
    · intro hcontra
      exact hgij (by simpa using hcontra.2)

theorem choose_centers_spec (x c : List ℚ) (N M : Nat) (hN : N ≠ 1) (hM : 2 ≤ M) :
    choose_centers ⟨[N, 1], x⟩ ⟨[M, 1], c⟩
      = .ok (vecT N (fun i => (nearest x c M i : ℚ))) := by
  have hM1 : M ≠ 1 := by omega
  have hM0 : 0 < M := by omega
  unfold choose_centers
  simp only [reduceIte]
  have ht : transpose2 ⟨[M, 1], c⟩
      = .ok (Tensor.ofFn [1, M]
          (fun ix => Tensor.get ⟨[M, 1], c⟩ [ix.getD 1 0, ix.getD 0 0])) := rfl
  rw [ht, kbind_ok]
  have hsub : tsub (unsqueezeLast ⟨[N, 1], x⟩)
        (unsqueeze0 (Tensor.ofFn [1, M]
          (fun ix => Tensor.get ⟨[M, 1], c⟩ [ix.getD 1 0, ix.getD 0 0])))
      = .ok (Tensor.ofFn [N, 1, M]
          (fun ix => (unsqueezeLast ⟨[N, 1], x⟩).getB ix -
            (unsqueeze0 (Tensor.ofFn [1, M]
              (fun ix => Tensor.get ⟨[M, 1], c⟩ [ix.getD 1 0, ix.getD 0 0]))).getB ix)) := by
    apply ebin_eq
    exact bcast_Nn1 N M
  rw [hsub, kbind_ok]
  have hdist : squeezeAll (tsquare (Tensor.ofFn [N, 1, M]
        (fun ix => (unsqueezeLast ⟨[N, 1], x⟩).getB ix -
          (unsqueeze0 (Tensor.ofFn [1, M]
            (fun ix => Tensor.get ⟨[M, 1], c⟩ [ix.getD 1 0, ix.getD 0 0]))).getB ix)))
      = matT N M (fun i j => (x.getD i 0 - c.getD j 0) ^ 2) := by
    unfold squeezeAll tsquare
    simp only [ofFn_shape, ofFn_data]
    have hfil : List.filter (fun n => decide (n ≠ 1)) [N, 1, M] = [N, M] := by
      simp [hN, hM1]
    rw [hfil, List.map_map, allIndices_n1k, List.map_flatMap]
    unfold matT
    congr 1
    apply List.flatMap_congr
    intro i hi
    rw [List.map_map]
    apply List.map_congr_left
    intro j hj
    have hjM : j < M := List.mem_range.mp hj
    have hx : (unsqueezeLast ⟨[N, 1], x⟩).getB [i, 0, j] = x.getD i 0 := by
      show Tensor.get ⟨[N, 1, 1], x⟩ (bIdx [N, 1, 1] [i, 0, j]) = x.getD i 0
      have hbix : bIdx [N, 1, 1] [i, 0, j] = [i, 0, 0] := by simp [bIdx, hN]
      rw [hbix]
      show x.getD (flatIdx [N, 1, 1] [i, 0, 0]) 0 = x.getD i 0
      have hf : flatIdx [N, 1, 1] [i, 0, 0] = i := by simp [flatIdx]
      rw [hf]
    have hc2 : (unsqueeze0 (Tensor.ofFn [1, M]
          (fun ix => Tensor.get ⟨[M, 1], c⟩ [ix.getD 1 0, ix.getD 0 0]))).getB [i, 0, j]
        = c.getD j 0 := by
      show Tensor.get ⟨[1, 1, M], (allIndices [1, M]).map
          (fun ix => Tensor.get ⟨[M, 1], c⟩ [ix.getD 1 0, ix.getD 0 0])⟩
          (bIdx [1, 1, M] [i, 0, j]) = c.getD j 0
      have hbix : bIdx [1, 1, M] [i, 0, j] = [0, 0, j] := by simp [bIdx, hM1]
      rw [hbix]
      show ((allIndices [1, M]).map
          (fun ix => Tensor.get ⟨[M, 1], c⟩ [ix.getD 1 0, ix.getD 0 0])).getD
          (flatIdx [1, 1, M] [0, 0, j]) 0 = c.getD j 0
      have hf : flatIdx [1, 1, M] [0, 0, j] = j := by simp [flatIdx]
      rw [hf, allIndices_1k, List.map_map]
      rw [getD_map_range _ hjM]
      show c.getD (flatIdx [M, 1] [j, 0]) 0 = c.getD j 0
      have hf2 : flatIdx [M, 1] [j, 0] = j := by simp [flatIdx]
      rw [hf2]
    show ((unsqueezeLast ⟨[N, 1], x⟩).getB [i, 0, j] -
        (unsqueeze0 (Tensor.ofFn [1, M]
          (fun ix => Tensor.get ⟨[M, 1], c⟩ [ix.getD 1 0, ix.getD 0 0]))).getB [i, 0, j]) ^ 2
        = (x.getD i 0 - c.getD j 0) ^ 2
    rw [hx, hc2]
  rw [hdist]
  exact argminDim_mat N M _ hM0

theorem nearest_lt (x c : List ℚ) (M i : Nat) (hM : 0 < M) : nearest x c M i < M := by
  unfold nearest
  have h : ((List.range M).map (fun k => (x.getD i 0 - c.getD k 0) ^ 2)) ≠ [] := by
    simp [List.map_eq_nil_iff]
    omega
  have := argminIdx_lt _ h
  simpa using this


set_option maxHeartbeats 2000000 in
theorem lloydStep_chain (x c : List ℚ) (N M K : Nat) (hN : 2 ≤ N) (hK : 2 ≤ K)
    (hM : 2 ≤ M) (hMK : M ≤ K) :
    lloydStep ⟨[N, 1], x⟩ N K ⟨[M, 1], c⟩
      = (tsub (colT K (newCtrs x c N M)) ⟨[M, 1], c⟩ >>= fun diff =>
         (sumDim (tsquare diff) 1) >>= fun sums =>
         .ok (vecT N (fun i => (nearest x c M i : ℚ)), colT K (newCtrs x c N M),
              (sums.data.map sqrtQ).sum)) := by
  have hgb : ∀ i < N, nearest x c M i < K :=
    fun i _ => lt_of_lt_of_le (nearest_lt x c M i (by omega)) hMK
  unfold lloydStep
  rw [choose_centers_spec x c N M (by omega) hM, kbind_ok]
  rw [unsqueeze1_vec, kbind_ok]
  rw [scatter1_col N K (nearest x c M) hgb (by omega), kbind_ok]
  rw [tmul_X_mat N K x _ (by omega) (by omega), kbind_ok]
  rw [sumDim0_mat, kbind_ok]
  rw [sumDim0_mat, kbind_ok]
  simp only [recipNZ_vec]
  rw [tmul_vec K _ _ (by omega), kbind_ok]
  rw [unsqueeze1_vec, kbind_ok]
  rfl

theorem tsub_mk_col (n : Nat) (d1 d2 : List ℚ) (hn1 : n ≠ 1) :
    tsub ⟨[n, 1], d1⟩ ⟨[n, 1], d2⟩
      = .ok (colT n (fun j => d1.getD j 0 - d2.getD j 0)) := by
  have hb : bcastShape (Tensor.mk [n, 1] d1).shape (Tensor.mk [n, 1] d2).shape
      = some [n, 1] := by
    simpa using bcast_col n
  unfold tsub
  rw [ebin_eq _ _ _ _ hb]
  apply congrArg
  apply ofFn_col
  intro j hj
  have hbix : bIdx [n, 1] [j, 0] = [j, 0] := by simp [bIdx, hn1]
  have hf : flatIdx [n, 1] [j, 0] = j := by simp [flatIdx]
  have h1 : (Tensor.mk [n, 1] d1).getB [j, 0] = d1.getD j 0 := by
    show (Tensor.mk [n, 1] d1).get (bIdx [n, 1] [j, 0]) = d1.getD j 0
    rw [hbix]
    show d1.getD (flatIdx [n, 1] [j, 0]) 0 = d1.getD j 0
    rw [hf]
  have h2 : (Tensor.mk [n, 1] d2).getB [j, 0] = d2.getD j 0 := by
    show (Tensor.mk [n, 1] d2).get (bIdx [n, 1] [j, 0]) = d2.getD j 0
    rw [hbix]
    show d2.getD (flatIdx [n, 1] [j, 0]) 0 = d2.getD j 0
    rw [hf]
  rw [h1, h2]

theorem colT_eq_mk (n : Nat) (h : Nat → ℚ) : colT n h = ⟨[n, 1], (List.range n).map h⟩ := rfl

set_option maxHeartbeats 2000000 in
theorem lloydStep_ok (x c : List ℚ) (N K : Nat) (hN : 2 ≤ N) (hK : 2 ≤ K) :
    ∃ s, lloydStep ⟨[N, 1], x⟩ N K ⟨[K, 1], c⟩
      = .ok (vecT N (fun i => (nearest x c K i : ℚ)), colT K (newCtrs x c N K), s) := by
  rw [lloydStep_chain x c N K K hN hK hK (le_refl K)]
  rw [colT_eq_mk K (newCtrs x c N K), tsub_mk_col K _ c (by omega), kbind_ok]
  rw [tsquare_col, sumDim1_col, kbind_ok]
  exact ⟨_, rfl⟩

set_option maxHeartbeats 2000000 in
theorem lloydStep_mismatch (x c : List ℚ) (N M K : Nat) (hN : 2 ≤ N) (hK : 2 ≤ K)
    (hM : 2 ≤ M) (hMK : M ≤ K) (hne : M ≠ K) :
    lloydStep ⟨[N, 1], x⟩ N K ⟨[M, 1], c⟩ = .error .shapeErr := by
  rw [lloydStep_chain x c N M K hN hK hM hMK]
  have herr : tsub (colT K (newCtrs x c N M)) ⟨[M, 1], c⟩ = .error .shapeErr := by
    unfold tsub
    apply ebin_none
    simpa [colT_shape] using bcast_col_ne K M (fun h => hne h.symm) (by omega) (by omega)
  rw [herr, kbind_err]

set_option maxHeartbeats 2000000 in
theorem lloydStepFixed_ok (x c : List ℚ) (N K : Nat) (hN : 2 ≤ N) (hK : 1 ≤ K) :
    ∃ s, lloydStepFixed ⟨[N, 1], x⟩ N K ⟨[K + 1, 1], c⟩
      = .ok (vecT N (fun i => (nearest x c (K + 1) i : ℚ)),
          ⟨[K + 1, 1], ((List.range (K + 1)).map (newCtrs x c N (K + 1))).take K ++ c.drop K⟩,
          s) := by
  have hgb : ∀ i < N, nearest x c (K + 1) i < K + 1 :=
    fun i _ => nearest_lt x c (K + 1) i (by omega)
  unfold lloydStepFixed
  rw [choose_centers_spec x c N (K + 1) (by omega) (by omega), kbind_ok]
  rw [unsqueeze1_vec, kbind_ok]
  rw [scatter1_col N (K + 1) (nearest x c (K + 1)) hgb (by omega), kbind_ok]
  rw [tmul_X_mat N (K + 1) x _ (by omega) (by omega), kbind_ok]
  rw [sumDim0_mat, kbind_ok]
  rw [sumDim0_mat, kbind_ok]
  simp only [recipNZ_vec]
  rw [tmul_vec (K + 1) _ _ (by omega), kbind_ok]
  rw [unsqueeze1_vec, kbind_ok]
  have hslice : sliceAssignRows ⟨[K + 1, 1], c⟩
        (colT (K + 1) (fun j =>
          ((List.range N).map (fun i => x.getD i 0 * if nearest x c (K + 1) i = j then 1 else 0)).sum *
          (if ((List.range N).map (fun i => if nearest x c (K + 1) i = j then (1:ℚ) else 0)).sum = 0 then 0
           else 1 / ((List.range N).map (fun i => if nearest x c (K + 1) i = j then (1:ℚ) else 0)).sum))) K
      = .ok ⟨[K + 1, 1],
          ((List.range (K + 1)).map (newCtrs x c N (K + 1))).take K ++ c.drop K⟩ := by
    rw [colT_eq_mk]
    unfold sliceAssignRows
    simp only [Nat.min_eq_left (Nat.le_succ K), List.prod_cons, List.prod_nil, one_mul, mul_one, and_self, if_true]
    rfl
  rw [hslice, kbind_ok]
  rw [tsub_mk_col (K + 1) _ c (by omega), kbind_ok]
  rw [tsquare_col, sumDim1_col, kbind_ok]
  exact ⟨_, rfl⟩


theorem lloydLoop_origin (x : List ℚ) (N K : Nat) (hN : 2 ≤ N) (hK : 2 ≤ K) (tol : ℚ) :
    ∀ (n : Nat) (st : Option Tensor × Tensor) (c0 : List ℚ), st.2 = ⟨[K, 1], c0⟩ →
      c0.length = K →
      ∀ a cfin, lloydLoop ⟨[N, 1], x⟩ N K tol n st = .ok (some a, cfin) →
        (st.1 = some a ∧ st.2 = cfin) ∨
        (∃ cl : List ℚ, cl.length = K ∧ a = vecT N (fun i => (nearest x cl K i : ℚ)) ∧
          cfin = colT K (newCtrs x cl N K)) := by
  intro n
  induction n with
  | zero =>
    intro st c0 hst _ a cfin h
    left
    unfold lloydLoop at h
    have h2 := h
    simp only [Except.ok.injEq] at h2
    constructor
    · rw [h2]
    · rw [h2]
  | succ n ih =>
    intro st c0 hst hlen a cfin h
    right
    obtain ⟨s, hstep⟩ := lloydStep_ok x c0 N K hN hK
    unfold lloydLoop at h
    rw [hst, hstep, kbind_ok] at h
    by_cases hlt : s * s < tol
    · rw [if_pos hlt] at h
      simp only [Except.ok.injEq, Prod.mk.injEq, Option.some.injEq] at h
      exact ⟨c0, hlen, h.1.symm, h.2.symm⟩
    · rw [if_neg hlt] at h
      have := ih (some (vecT N (fun i => (nearest x c0 K i : ℚ))),
          colT K (newCtrs x c0 N K)) ((List.range K).map (newCtrs x c0 N K)) rfl
          (by simp) a cfin h
      rcases this with ⟨h1, h2⟩ | hex
      · simp only [Option.some.injEq] at h1
        exact ⟨c0, hlen, h1.symm, h2.symm⟩
      · exact hex

theorem lloydLoopFixed_last (x : List ℚ) (N K : Nat) (hN : 2 ≤ N) (hK : 1 ≤ K)
    (tol z : ℚ) :
    ∀ (n : Nat) (st : Option Tensor × Tensor),
      (∃ cl : List ℚ, st.2 = ⟨[K + 1, 1], cl⟩ ∧ cl.length = K + 1 ∧ cl.getD K 0 = z) →
      ∀ a cfin, lloydLoopFixed ⟨[N, 1], x⟩ N K tol n st = .ok (a, cfin) →
        ∃ cl : List ℚ, cfin = ⟨[K + 1, 1], cl⟩ ∧ cl.length = K + 1 ∧ cl.getD K 0 = z := by
  intro n
  induction n with
  | zero =>
    intro st hinv a cfin h
    unfold lloydLoopFixed at h
    simp only [Except.ok.injEq] at h
    obtain ⟨cl, hcl, hlen, hz⟩ := hinv
    refine ⟨cl, ?_, hlen, hz⟩
    rw [← hcl, h]
  | succ n ih =>
    intro st hinv a cfin h
    obtain ⟨cl, hcl, hlen, hz⟩ := hinv
    obtain ⟨s, hstep⟩ := lloydStepFixed_ok x cl N K hN hK
    unfold lloydLoopFixed at h
    rw [hcl, hstep, kbind_ok] at h
    set newcl : List ℚ :=
      ((List.range (K + 1)).map (newCtrs x cl N (K + 1))).take K ++ cl.drop K with hnewcl
    have hinv2 : newcl.length = K + 1 ∧ newcl.getD K 0 = z := by
      constructor
      · rw [hnewcl]
        rw [List.length_append, List.length_take, List.length_drop, List.length_map,
          List.length_range, hlen]
        omega
      · rw [hnewcl]
        have htk : (((List.range (K + 1)).map (newCtrs x cl N (K + 1))).take K).length = K := by
          rw [List.length_take, List.length_map, List.length_range]
          omega
        rw [List.getD_append_right _ _ _ _ (by omega)]
        rw [htk, Nat.sub_self]
        rw [List.getD_eq_getElem?_getD, List.getElem?_drop]
        rw [Nat.add_zero, ← List.getD_eq_getElem?_getD]
        exact hz
    by_cases hlt : s * s < tol
    · rw [if_pos hlt] at h
      simp only [Except.ok.injEq, Prod.mk.injEq] at h
      exact ⟨newcl, h.2.symm, hinv2.1, hinv2.2⟩
    · rw [if_neg hlt] at h
      exact ih (some (vecT N (fun i => (nearest x cl (K + 1) i : ℚ))), ⟨[K + 1, 1], newcl⟩)
        ⟨newcl, rfl, hinv2.1, hinv2.2⟩ a cfin h


theorem allIndices_mem_length (s : List Nat) (ix : List Nat) (h : ix ∈ allIndices s) :
    ix.length = s.length := by
  induction s generalizing ix with
  | nil =>
    simp [allIndices] at h
    simp [h]
  | cons n s ih =>
    unfold allIndices at h
    rw [List.mem_flatMap] at h
    obtain ⟨i, _, hmem⟩ := h
    rw [List.mem_map] at hmem
    obtain ⟨ix2, hix2, rfl⟩ := hmem
    simp [ih ix2 hix2]

theorem prod_filter_ne_one (s : List Nat) :
    (s.filter (fun n => decide (n ≠ 1))).prod = s.prod := by
  induction s with
  | nil => rfl
  | cons a s ih =>
    by_cases ha : a = 1
    · subst ha
      rw [List.filter_cons_of_neg (by simp)]
      rw [ih]
      simp
    · rw [List.filter_cons_of_pos (by simp [ha])]
      rw [List.prod_cons, List.prod_cons, ih]

theorem wf_squeezeAll (t : Tensor) (h : t.data.length = t.shape.prod) :
    (squeezeAll t).data.length = (squeezeAll t).shape.prod := by
  show t.data.length = (t.shape.filter (fun n => decide (n ≠ 1))).prod
  rw [prod_filter_ne_one]
  exact h

theorem wf_nonzeroT (t : Tensor) :
    (nonzeroT t).data.length = (nonzeroT t).shape.prod := by
  unfold nonzeroT
  simp only [List.prod_cons, List.prod_nil, mul_one]
  rw [List.length_flatten, List.map_map]
  have h2 : ((allIndices t.shape).filter (fun ix => decide (t.get ix ≠ 0))).map
        (List.length ∘ fun ix => ix.map (fun i : Nat => (i : ℚ)))
      = ((allIndices t.shape).filter (fun ix => decide (t.get ix ≠ 0))).map
        (fun _ => t.shape.length) := by
    apply List.map_congr_left
    intro ix hix
    show (ix.map (fun i : Nat => (i : ℚ))).length = t.shape.length
    rw [List.length_map]
    exact allIndices_mem_length t.shape ix (List.mem_of_mem_filter hix)
  rw [h2, List.map_const', List.sum_replicate, smul_eq_mul]

theorem indexT_wf (x idx t : Tensor) (hx : x.data.length = x.shape.prod)
    (hidx : idx.data.length = idx.shape.prod) (h : indexT x idx = .ok t) :
    t.shape = idx.shape ++ x.shape.tail ∧ t.data.length = t.shape.prod := by
  unfold indexT at h
  split at h
  · exact absurd h (by simp)
  · rename_i n rest hshape
    split at h
    · rename_i hall
      simp only [Except.ok.injEq] at h
      subst h
      rw [hshape] at hx
      simp only [List.prod_cons] at hx
      constructor
      · simp [hshape]
      · simp only [hshape, List.tail_cons]
        rw [List.length_flatten, List.map_map]
        have h2 : idx.data.map
              (List.length ∘ fun q => (x.data.drop (qToNat q * rest.prod)).take rest.prod)
            = idx.data.map (fun _ => rest.prod) := by
          apply List.map_congr_left
          intro q hq
          have hqn : qToNat q < n := by
            rw [List.all_eq_true] at hall
            have := hall q hq
            simp at this
            exact this.2
          show ((x.data.drop (qToNat q * rest.prod)).take rest.prod).length = rest.prod
          rw [List.length_take, List.length_drop, hx]
          have hle : qToNat q * rest.prod + rest.prod ≤ n * rest.prod := by
            calc qToNat q * rest.prod + rest.prod = (qToNat q + 1) * rest.prod := by ring
            _ ≤ n * rest.prod := Nat.mul_le_mul_right _ hqn
          omega
        rw [h2, List.map_const', List.sum_replicate, smul_eq_mul, List.prod_append]
        rw [hidx]
    · exact absurd h (by simp)


theorem getD_eq_getElem (x : List ℚ) (i : Nat) (hi : i < x.length) :
    x.getD i 0 = x.get ⟨i, hi⟩ := by
  rw [List.getD_eq_getElem?_getD, List.getElem?_eq_getElem hi]
  rfl

theorem drop_take_one (x : List ℚ) (i : Nat) (hi : i < x.length) :
    (x.drop i).take 1 = [x.getD i 0] := by
  rw [List.drop_eq_getElem_cons hi, List.take_succ_cons, List.take_zero]
  rw [getD_eq_getElem x i hi]
  rfl

theorem mk_shape (s : List Nat) (d : List ℚ) : (Tensor.mk s d).shape = s := rfl

theorem mk_data (s : List Nat) (d : List ℚ) : (Tensor.mk s d).data = d := rfl

theorem forgy_spec (x : List ℚ) (N : Nat) (perm : List Nat) (K : Nat)
    (hx : x.length = N) (hp : ∀ i ∈ perm.take K, i < N) :
    forgy_initialization ⟨[N, 1], x⟩ perm K
      = .ok ⟨[(perm.take K).length, 1], (perm.take K).map (fun i => x.getD i 0)⟩ := by
  have hall : ((perm.take K).map (fun i : Nat => (i : ℚ))).all
      (fun q => decide (0 ≤ q ∧ qToNat q < N)) = true := by
    rw [List.all_eq_true]
    intro q hq
    rcases List.mem_map.mp hq with ⟨i, hi, rfl⟩
    simp [qToNat_cast, hp i hi]
  unfold forgy_initialization indexT
  simp only [mk_shape, mk_data]
  rw [if_pos hall]
  apply congrArg
  congr 1
  rw [List.map_map]
  rw [← List.flatMap_def]
  have hcongr : ∀ i ∈ perm.take K,
      ((fun q => (x.drop (qToNat q * List.prod [1])).take (List.prod [1])) ∘
        (fun i : Nat => (i : ℚ))) i = [x.getD i 0] := by
    intro i hi
    show (x.drop (qToNat (i : ℚ) * List.prod [1])).take (List.prod [1]) = [x.getD i 0]
    have hp1 : List.prod [1] = 1 := rfl
    rw [hp1, qToNat_cast, mul_one]
    exact drop_take_one x i (by rw [hx]; exact hp i hi)
  rw [List.flatMap_congr hcongr]
  rw [← List.map_eq_flatMap]


theorem getRow_mk_col (N i : Nat) (x : List ℚ) (hx : x.length = N) (hi : i < N) :
    getRow ⟨[N, 1], x⟩ i = [x.getD i 0] := by
  unfold getRow
  simp only [mk_shape, mk_data, List.tail_cons, List.prod_cons, List.prod_nil, mul_one, one_mul]
  exact drop_take_one x i (by omega)

theorem sqDist_single (a b : ℚ) : sqDist [a] [b] = (a - b) ^ 2 := by
  simp [sqDist]

theorem assignVal_vecT (N i : Nat) (g : Nat → Nat) (hi : i < N) :
    assignVal (vecT N (fun i => (g i : ℚ))) i = g i := by
  unfold assignVal
  rw [vecT_getD _ hi, qToNat_cast]

theorem countAssigned_vecT (N k : Nat) (g : Nat → Nat) :
    countAssigned (vecT N (fun i => (g i : ℚ))) k
      = (List.range N).countP (fun i => decide (g i = k)) := by
  unfold countAssigned vecT
  simp only [mk_data]
  rw [List.countP_map]
  apply List.countP_congr
  intro i _
  simp [qToNat_cast]

theorem sum_indQ (l : List Nat) (g : Nat → Nat) (j : Nat) :
    (l.map (fun i => indQ (g i) j)).sum = (l.countP (fun i => decide (g i = j)) : ℚ) := by
  induction l with
  | nil => simp
  | cons a l ih =>
    rw [List.map_cons, List.sum_cons, ih, List.countP_cons]
    unfold indQ
    by_cases h : g a = j
    · simp [h]
      ring
    · simp [h]

theorem sum_mul_indQ (l : List Nat) (x : List ℚ) (g : Nat → Nat) (j : Nat) :
    (l.map (fun i => x.getD i 0 * indQ (g i) j)).sum
      = ((l.filter (fun i => decide (g i = j))).map (fun i => x.getD i 0)).sum := by
  induction l with
  | nil => simp
  | cons a l ih =>
    rw [List.map_cons, List.sum_cons, ih]
    unfold indQ
    by_cases h : g a = j
    · rw [List.filter_cons_of_pos (by simp [h])]
      simp [h]
    · rw [List.filter_cons_of_neg (by simp [h])]
      simp [h]

theorem wrapperMatch_ok (r : Except KErr (Option Tensor × Tensor)) (a : Tensor) (c : Tensor)
    (h : (r >>= fun st =>
        match st.1 with
        | some choice => .ok (choice, st.2)
        | none => (.error .unboundLocal : Except KErr (Tensor × Tensor))) = .ok (a, c)) :
    r = .ok (some a, c) := by
  cases r with
  | error e => rw [kbind_err] at h; exact absurd h (by simp)
  | ok st =>
    rw [kbind_ok] at h
    obtain ⟨st1, st2⟩ := st
    cases st1 with
    | none => exact absurd h (by simp)
    | some choice =>
      simp only [Except.ok.injEq, Prod.mk.injEq] at h
      rw [h.1, h.2]

theorem nonzeroT_vec (p : List ℚ) (N : Nat) :
    nonzeroT ⟨[N], p⟩
      = ⟨[((List.range N).filter (fun i => decide (p.getD i 0 ≠ 0))).length, 1],
          ((List.range N).filter (fun i => decide (p.getD i 0 ≠ 0))).map
            (fun i : Nat => (i : ℚ))⟩ := by
  unfold nonzeroT
  simp only [mk_shape, mk_data, List.length_cons, List.length_nil]
  have hfil : (allIndices [N]).filter (fun ix => decide (Tensor.get ⟨[N], p⟩ ix ≠ 0))
      = ((List.range N).filter (fun i => decide (p.getD i 0 ≠ 0))).map (fun i => [i]) := by
    rw [allIndices_one, List.filter_map]
    apply congrArg
    apply List.filter_congr
    intro i _
    show decide (Tensor.get ⟨[N], p⟩ [i] ≠ 0) = decide (p.getD i 0 ≠ 0)
    have hg : Tensor.get ⟨[N], p⟩ [i] = p.getD i 0 := by
      show p.getD (flatIdx [N] [i]) 0 = p.getD i 0
      have hf : flatIdx [N] [i] = i := by simp [flatIdx]
      rw [hf]
    rw [hg]
  rw [hfil]
  congr 1
  · simp
  · rw [List.map_map, ← List.flatMap_def]
    have : ∀ i ∈ (List.range N).filter (fun i => decide (p.getD i 0 ≠ 0)),
        ((fun ix => ix.map (fun i : Nat => (i : ℚ))) ∘ (fun i => [i])) i = [(i : ℚ)] := by
      intro i _
      rfl
    rw [List.flatMap_congr this, ← List.map_eq_flatMap]

theorem length_filter_range (p : List ℚ) :
    ((List.range p.length).filter (fun i => decide (p.getD i 0 ≠ 0))).length
      = p.countP (fun q => decide (q ≠ 0)) := by
  induction p with
  | nil => simp
  | cons a p ih =>
    rw [List.length_cons, List.range_succ_eq_map]
    rw [List.filter_cons]
    rw [List.countP_cons]
    have hmap : (List.map Nat.succ (List.range p.length)).filter
          (fun i => decide ((a :: p).getD i 0 ≠ 0))
        = ((List.range p.length).filter (fun i => decide (p.getD i 0 ≠ 0))).map Nat.succ := by
      rw [List.filter_map]
      apply congrArg
      apply List.filter_congr
      intro i _
      rfl
    have hgd0 : (a :: p).getD 0 0 = a := rfl
    by_cases ha : a = 0
    · rw [if_neg (by simp [hgd0, ha]), if_neg (by simp [ha])]
      rw [hmap, List.length_map, Nat.add_zero]
      exact ih
    · rw [if_pos (by simp [hgd0, ha]), if_pos (by simp [ha])]
      rw [List.length_cons, hmap, List.length_map]
      omega


set_option maxHeartbeats 4000000

theorem toNat_ofNat_lit (n : Nat) [n.AtLeastTwo] :
    (OfNat.ofNat n : ℤ).toNat = OfNat.ofNat n := rfl

theorem qToNat_ofNat (n : Nat) [n.AtLeastTwo] :
    qToNat (OfNat.ofNat n : ℚ) = OfNat.ofNat n := rfl

theorem qToNat_ratOfNat (n : Nat) :
    qToNat (@OfNat.ofNat Rat n (@Rat.instOfNat n)) = n := rfl

theorem qToNat_zero : qToNat 0 = 0 := rfl

theorem qToNat_one : qToNat 1 = 1 := rfl

/-- C1: counterexample. A concrete lloyd update step in which cluster 1 receives
zero assigned points, yet its center changes from the old value 1 to 0: the
update does not retain zero-count clusters' old centers. -/
theorem C1_counterexample :
    lloydStep ⟨[2, 1], [1, 1]⟩ 2 2 ⟨[2, 1], [1, 1]⟩
        = .ok (⟨[2], [0, 0]⟩, ⟨[2, 1], [1, 0]⟩, 1)
      ∧ countAssigned ⟨[2], [0, 0]⟩ 1 = 0
      ∧ getRow (⟨[2, 1], [1, 0]⟩ : Tensor) 1 ≠ getRow (⟨[2, 1], [1, 1]⟩ : Tensor) 1 := by
  refine ⟨by norm_num [lloyd, lloyd_nnz, lloyd_nnz_fixed_0_center, lloyd_fixed_nnz, lloydLoop, lloydLoopFixed,
    lloydStep, lloydStepFixed, forgy_initialization, forgy_initialization_nnz,
    forgy_initialization_fixed_nnz, nnzIndexOf, indexT, cat0, nonzeroT, viewFlat,
    squeezeLast, sliceAssignRows, choose_centers,
    transpose2, unsqueeze0, unsqueezeLast, tsub, tmul,
    ebin, bcastShape, bcastRev, Tensor.ofFn, allIndices, Tensor.get, Tensor.getB, bIdx,
    flatIdx, tsquare, squeezeAll, argminDim, argminIdx, eraseAt, insertAt, sumDim,
    unsqueeze1, scatter1, zerosT, qToNat, recipNZ, sqrtQ, List.range_succ,
    Bind.bind, Except.bind], by decide, by decide⟩

/-- C1: amended claim. In every lloyd update step, a cluster k that receives
zero assigned points has its new center overwritten with the zero row: the
reciprocal guard only protects the division, while `centers = (Xp * Xsum)
.unsqueeze(1)` rebuilds every row, so zero-count clusters are zeroed rather
than retained. -/
theorem C1_amended (x c : List ℚ) (N K : Nat) (hN : 2 ≤ N) (hK : 2 ≤ K)
    (a cNew : Tensor) (s : ℚ) (k : Nat) (hk : k < K)
    (hstep : lloydStep ⟨[N, 1], x⟩ N K ⟨[K, 1], c⟩ = .ok (a, cNew, s))
    (hcnt : countAssigned a k = 0) :
    getRow cNew k = [0] := by
  obtain ⟨s2, hspec⟩ := lloydStep_ok x c N K hN hK
  rw [hstep] at hspec
  simp only [Except.ok.injEq, Prod.mk.injEq] at hspec
  obtain ⟨ha, hc, _⟩ := hspec
  subst ha
  subst hc
  rw [countAssigned_vecT] at hcnt
  rw [colT_getRow _ hk]
  have hz : newCtrs x c N K k = 0 := by
    unfold newCtrs
    have hc0 : ccnt (nearest x c K) N k = 0 := by
      unfold ccnt
      rw [sum_indQ, hcnt]
      simp
    rw [hc0]
    unfold recipQ
    simp
  rw [hz]

theorem C1_witness :
    (lloydStep ⟨[2, 1], [1, 1]⟩ 2 2 ⟨[2, 1], [1, 1]⟩
        = .ok (⟨[2], [0, 0]⟩, ⟨[2, 1], [1, 0]⟩, 1))
      ∧ getRow (⟨[2, 1], [1, 0]⟩ : Tensor) 1 = [0] :=
  ⟨by norm_num [lloyd, lloyd_nnz, lloyd_nnz_fixed_0_center, lloyd_fixed_nnz, lloydLoop, lloydLoopFixed,
    lloydStep, lloydStepFixed, forgy_initialization, forgy_initialization_nnz,
    forgy_initialization_fixed_nnz, nnzIndexOf, indexT, cat0, nonzeroT, viewFlat,
    squeezeLast, sliceAssignRows, choose_centers,
    transpose2, unsqueeze0, unsqueezeLast, tsub, tmul,
    ebin, bcastShape, bcastRev, Tensor.ofFn, allIndices, Tensor.get, Tensor.getB, bIdx,
    flatIdx, tsquare, squeezeAll, argminDim, argminIdx, eraseAt, insertAt, sumDim,
    unsqueeze1, scatter1, zerosT, qToNat, recipNZ, sqrtQ, List.range_succ,
    Bind.bind, Except.bind],
   C1_amended [1, 1] [1, 1] 2 2 (by decide) (by decide) ⟨[2], [0, 0]⟩ ⟨[2, 1], [1, 0]⟩ 1 1 (by decide)
     (by norm_num [lloyd, lloyd_nnz, lloyd_nnz_fixed_0_center, lloyd_fixed_nnz, lloydLoop, lloydLoopFixed,
    lloydStep, lloydStepFixed, forgy_initialization, forgy_initialization_nnz,
    forgy_initialization_fixed_nnz, nnzIndexOf, indexT, cat0, nonzeroT, viewFlat,
    squeezeLast, sliceAssignRows, choose_centers,
    transpose2, unsqueeze0, unsqueezeLast, tsub, tmul,
    ebin, bcastShape, bcastRev, Tensor.ofFn, allIndices, Tensor.get, Tensor.getB, bIdx,
    flatIdx, tsquare, squeezeAll, argminDim, argminIdx, eraseAt, insertAt, sumDim,
    unsqueeze1, scatter1, zerosT, qToNat, recipNZ, sqrtQ, List.range_succ,
    Bind.bind, Except.bind]) (by decide)⟩

/-- C7: after one update step of lloyd, every cluster k with a non-zero count
of assigned points has its new center equal to the arithmetic mean of exactly
the data rows i with assignment[i] = k (exact rational arithmetic stands in
for floating point). -/
theorem C7_theorem (x c : List ℚ) (N K : Nat) (hN : 2 ≤ N) (hK : 2 ≤ K)
    (a cNew : Tensor) (s : ℚ) (k : Nat) (hk : k < K)
    (hstep : lloydStep ⟨[N, 1], x⟩ N K ⟨[K, 1], c⟩ = .ok (a, cNew, s))
    (hcnt : countAssigned a k ≠ 0) :
    getRow cNew k
      = [(((List.range N).filter (fun i => decide (assignVal a i = k))).map
            (fun i => x.getD i 0)).sum / (countAssigned a k : ℚ)] := by
  obtain ⟨s2, hspec⟩ := lloydStep_ok x c N K hN hK
  rw [hstep] at hspec
  simp only [Except.ok.injEq, Prod.mk.injEq] at hspec
  obtain ⟨ha, hc, _⟩ := hspec
  subst ha
  subst hc
  rw [countAssigned_vecT] at hcnt ⊢
  rw [colT_getRow _ hk]
  have hfil : (List.range N).filter
        (fun i => decide (assignVal (vecT N (fun i => (nearest x c K i : ℚ))) i = k))
      = (List.range N).filter (fun i => decide (nearest x c K i = k)) := by
    apply List.filter_congr
    intro i hi
    rw [assignVal_vecT N i _ (List.mem_range.mp hi)]
  rw [hfil]
  have hval : newCtrs x c N K k
      = (((List.range N).filter (fun i => decide (nearest x c K i = k))).map
          (fun i => x.getD i 0)).sum
        / (((List.range N).countP (fun i => decide (nearest x c K i = k))) : ℚ) := by
    unfold newCtrs
    rw [show csum x (nearest x c K) N k
        = (((List.range N).filter (fun i => decide (nearest x c K i = k))).map
            (fun i => x.getD i 0)).sum from sum_mul_indQ _ x _ k]
    have hcc : ccnt (nearest x c K) N k
        = (((List.range N).countP (fun i => decide (nearest x c K i = k))) : ℚ) :=
      sum_indQ _ _ _
    rw [hcc]
    unfold recipQ
    rw [if_neg (by exact_mod_cast hcnt)]
    rw [mul_one_div]
  rw [hval]

theorem C7_witness :
    (lloydStep ⟨[3, 1], [0, 1, 3]⟩ 3 2 ⟨[2, 1], [0, 1]⟩
        = .ok (⟨[3], [0, 1, 1]⟩, ⟨[2, 1], [0, 2]⟩, 1))
      ∧ getRow (⟨[2, 1], [0, 2]⟩ : Tensor) 1
        = [(((List.range 3).filter
              (fun i => decide (assignVal (⟨[3], [0, 1, 1]⟩ : Tensor) i = 1))).map
              (fun i => ([(0 : ℚ), 1, 3]).getD i 0)).sum
            / (countAssigned ⟨[3], [0, 1, 1]⟩ 1 : ℚ)] := by
  constructor
  · norm_num [lloyd, lloyd_nnz, lloyd_nnz_fixed_0_center, lloyd_fixed_nnz, lloydLoop, lloydLoopFixed,
    lloydStep, lloydStepFixed, forgy_initialization, forgy_initialization_nnz,
    forgy_initialization_fixed_nnz, nnzIndexOf, indexT, cat0, nonzeroT, viewFlat,
    squeezeLast, sliceAssignRows, choose_centers,
    transpose2, unsqueeze0, unsqueezeLast, tsub, tmul,
    ebin, bcastShape, bcastRev, Tensor.ofFn, allIndices, Tensor.get, Tensor.getB, bIdx,
    flatIdx, tsquare, squeezeAll, argminDim, argminIdx, eraseAt, insertAt, sumDim,
    unsqueeze1, scatter1, zerosT, qToNat, recipNZ, sqrtQ, List.range_succ,
    Bind.bind, Except.bind]
  · have h := C7_theorem [0, 1, 3] [0, 1] 3 2 (by decide) (by decide)
      ⟨[3], [0, 1, 1]⟩ ⟨[2, 1], [0, 2]⟩ 1 1 (by decide)
      (by norm_num [lloyd, lloyd_nnz, lloyd_nnz_fixed_0_center, lloyd_fixed_nnz, lloydLoop, lloydLoopFixed,
    lloydStep, lloydStepFixed, forgy_initialization, forgy_initialization_nnz,
    forgy_initialization_fixed_nnz, nnzIndexOf, indexT, cat0, nonzeroT, viewFlat,
    squeezeLast, sliceAssignRows, choose_centers,
    transpose2, unsqueeze0, unsqueezeLast, tsub, tmul,
    ebin, bcastShape, bcastRev, Tensor.ofFn, allIndices, Tensor.get, Tensor.getB, bIdx,
    flatIdx, tsquare, squeezeAll, argminDim, argminIdx, eraseAt, insertAt, sumDim,
    unsqueeze1, scatter1, zerosT, qToNat, recipNZ, sqrtQ, List.range_succ,
    Bind.bind, Except.bind]) (by decide)
    exact h

/-- C4: counterexample. A concrete lloyd call with max_iter = 0 does not return
the initialization output: it fails with the UnboundLocalError (choice_cluster
is never bound when the loop body does not run). -/
theorem C4_counterexample :
    lloyd ⟨[2, 1], [0, 1]⟩ [0, 1] 2 (1/100) 0 = .error .unboundLocal := rfl

/-- C4: amended claim. Whenever initialization succeeds, lloyd with max_iter = 0
raises UnboundLocalError (modelled as the unboundLocal error): the function
returns choice_cluster, a local that is only assigned inside the loop body,
which never runs. -/
theorem C4_amended (X : Tensor) (perm : List Nat) (K : Nat) (tol : ℚ) (c : Tensor)
    (hinit : forgy_initialization X perm K = .ok c) :
    lloyd X perm K tol 0 = .error .unboundLocal := by
  unfold lloyd
  rw [hinit, kbind_ok]
  rfl

theorem C4_witness :
    (forgy_initialization ⟨[2, 1], [0, 1]⟩ [0, 1] 2 = .ok ⟨[2, 1], [0, 1]⟩)
      ∧ lloyd ⟨[2, 1], [0, 1]⟩ [0, 1] 2 (1/7) 0 = .error .unboundLocal :=
  ⟨by norm_num [lloyd, lloyd_nnz, lloyd_nnz_fixed_0_center, lloyd_fixed_nnz, lloydLoop, lloydLoopFixed,
    lloydStep, lloydStepFixed, forgy_initialization, forgy_initialization_nnz,
    forgy_initialization_fixed_nnz, nnzIndexOf, indexT, cat0, nonzeroT, viewFlat,
    squeezeLast, sliceAssignRows, choose_centers,
    transpose2, unsqueeze0, unsqueezeLast, tsub, tmul,
    ebin, bcastShape, bcastRev, Tensor.ofFn, allIndices, Tensor.get, Tensor.getB, bIdx,
    flatIdx, tsquare, squeezeAll, argminDim, argminIdx, eraseAt, insertAt, sumDim,
    unsqueeze1, scatter1, zerosT, qToNat, recipNZ, sqrtQ, List.range_succ,
    Bind.bind, Except.bind], C4_amended ⟨[2, 1], [0, 1]⟩ [0, 1] 2 (1/7) ⟨[2, 1], [0, 1]⟩ (by norm_num [lloyd, lloyd_nnz, lloyd_nnz_fixed_0_center, lloyd_fixed_nnz, lloydLoop, lloydLoopFixed,
    lloydStep, lloydStepFixed, forgy_initialization, forgy_initialization_nnz,
    forgy_initialization_fixed_nnz, nnzIndexOf, indexT, cat0, nonzeroT, viewFlat,
    squeezeLast, sliceAssignRows, choose_centers,
    transpose2, unsqueeze0, unsqueezeLast, tsub, tmul,
    ebin, bcastShape, bcastRev, Tensor.ofFn, allIndices, Tensor.get, Tensor.getB, bIdx,
    flatIdx, tsquare, squeezeAll, argminDim, argminIdx, eraseAt, insertAt, sumDim,
    unsqueeze1, scatter1, zerosT, qToNat, recipNZ, sqrtQ, List.range_succ,
    Bind.bind, Except.bind])⟩


set_option maxHeartbeats 4000000

theorem bind_ok_iff {α β : Type _} (e : Except KErr α) (f : α → Except KErr β) (b : β) :
    (e >>= f) = .ok b ↔ ∃ a, e = .ok a ∧ f a = .ok b := by
  cases e with
  | error e2 =>
    rw [kbind_err]
    constructor
    · intro h
      exact absurd h (by simp)
    · rintro ⟨a, ha, _⟩
      exact absurd ha (by simp)
  | ok a =>
    rw [kbind_ok]
    constructor
    · intro h
      exact ⟨a, rfl, h⟩
    · rintro ⟨a2, ha2, hf⟩
      simp only [Except.ok.injEq] at ha2
      rw [ha2]
      exact hf

/-- C2: counterexample. For a 2-by-2 data matrix and 2-by-2 centers (d = 2),
choose_centers does not return a length-N assignment vector: the distance
tensor keeps the feature dimension and the result is an N-by-K matrix of
per-feature argmins. -/
theorem C2_counterexample :
    (choose_centers ⟨[2, 2], [0, 0, 1, 1]⟩ ⟨[2, 2], [0, 0, 1, 1]⟩
        = .ok ⟨[2, 2], [0, 0, 0, 0]⟩)
      ∧ (⟨[2, 2], [0, 0, 0, 0]⟩ : Tensor).shape ≠ [2] :=
  ⟨by norm_num [lloyd, lloyd_nnz, lloyd_nnz_fixed_0_center, lloyd_fixed_nnz, lloydLoop, lloydLoopFixed,
    lloydStep, lloydStepFixed, forgy_initialization, forgy_initialization_nnz,
    forgy_initialization_fixed_nnz, nnzIndexOf, indexT, cat0, nonzeroT, viewFlat,
    squeezeLast, sliceAssignRows, choose_centers,
    transpose2, unsqueeze0, unsqueezeLast, tsub, tmul,
    ebin, bcastShape, bcastRev, Tensor.ofFn, allIndices, Tensor.get, Tensor.getB, bIdx,
    flatIdx, tsquare, squeezeAll, argminDim, argminIdx, eraseAt, insertAt, sumDim,
    unsqueeze1, scatter1, zerosT, qToNat, recipNZ, sqrtQ, List.range_succ,
    Bind.bind, Except.bind], by decide⟩

/-- C2: amended claim. Only for d = 1 data and centers does choose_centers
return a length-N vector whose entry i is the index of the closest center to
row i in squared Euclidean distance, with ties broken by the lowest index. -/
theorem C2_amended (x c : List ℚ) (N K : Nat) (hx : x.length = N) (hc : c.length = K)
    (hN : 2 ≤ N) (hK : 2 ≤ K) :
    ∃ a, choose_centers ⟨[N, 1], x⟩ ⟨[K, 1], c⟩ = .ok a ∧ a.shape = [N]
      ∧ (∀ i < N, assignVal a i < K
        ∧ (∀ k < K, sqDist (getRow ⟨[N, 1], x⟩ i) (getRow ⟨[K, 1], c⟩ (assignVal a i))
            ≤ sqDist (getRow ⟨[N, 1], x⟩ i) (getRow ⟨[K, 1], c⟩ k))
        ∧ (∀ k < assignVal a i,
            sqDist (getRow ⟨[N, 1], x⟩ i) (getRow ⟨[K, 1], c⟩ (assignVal a i))
              < sqDist (getRow ⟨[N, 1], x⟩ i) (getRow ⟨[K, 1], c⟩ k))) := by
  refine ⟨vecT N (fun i => (nearest x c K i : ℚ)),
    choose_centers_spec x c N K (by omega) hK, rfl, ?_⟩
  intro i hi
  rw [assignVal_vecT N i _ hi]
  have hlt : nearest x c K i < K := nearest_lt x c K i (by omega)
  have hdef : nearest x c K i
      = argminIdx ((List.range K).map (fun k => (x.getD i 0 - c.getD k 0) ^ 2)) := rfl
  refine ⟨hlt, ?_, ?_⟩
  · intro k hk
    rw [getRow_mk_col N i x hx hi, getRow_mk_col K _ c hc hlt, getRow_mk_col K k c hc hk]
    rw [sqDist_single, sqDist_single]
    have harg := argminIdx_le ((List.range K).map (fun k => (x.getD i 0 - c.getD k 0) ^ 2)) k
      (by simpa using hk)
    rw [getD_map_range _ hk] at harg
    rw [← hdef] at harg
    rw [getD_map_range _ hlt] at harg
    exact harg
  · intro k hk
    have hkK : k < K := lt_trans hk hlt
    rw [getRow_mk_col N i x hx hi, getRow_mk_col K _ c hc hlt, getRow_mk_col K k c hc hkK]
    rw [sqDist_single, sqDist_single]
    have harg := argminIdx_first ((List.range K).map (fun k => (x.getD i 0 - c.getD k 0) ^ 2)) k
      (by rw [← hdef]; exact hk)
    rw [getD_map_range _ hkK] at harg
    rw [← hdef] at harg
    rw [getD_map_range _ hlt] at harg
    exact harg

theorem C2_witness :
    ∃ a, choose_centers ⟨[2, 1], [0, 10]⟩ ⟨[2, 1], [1, 9]⟩ = .ok a ∧ a.shape = [2]
      ∧ (∀ i < 2, assignVal a i < 2
        ∧ (∀ k < 2, sqDist (getRow ⟨[2, 1], [0, 10]⟩ i) (getRow ⟨[2, 1], [1, 9]⟩ (assignVal a i))
            ≤ sqDist (getRow ⟨[2, 1], [0, 10]⟩ i) (getRow ⟨[2, 1], [1, 9]⟩ k))
        ∧ (∀ k < assignVal a i,
            sqDist (getRow ⟨[2, 1], [0, 10]⟩ i) (getRow ⟨[2, 1], [1, 9]⟩ (assignVal a i))
              < sqDist (getRow ⟨[2, 1], [0, 10]⟩ i) (getRow ⟨[2, 1], [1, 9]⟩ k))) :=
  C2_amended [0, 10] [1, 9] 2 2 rfl rfl (by decide) (by decide)

/-- C3: counterexample. A concrete forgy_initialization_nnz run in which the
last (pinned) initial center is the zero row, not a randomly drawn data row:
the zero element is concatenated last, after the drawn rows. -/
theorem C3_counterexample :
    (forgy_initialization_nnz ⟨[3, 1], [5, 7, 9]⟩ ⟨[3, 1], [1, 1, 1]⟩ [0, 1, 2] 3
        = .ok ⟨[3, 1], [5, 7, 0]⟩)
      ∧ (lloyd_nnz_fixed_0_center ⟨[3, 1], [5, 7, 9]⟩ ⟨[3, 1], [1, 1, 1]⟩ [0, 1, 2] 2 (1/2) 1
        = .ok (⟨[3], [0, 1, 1]⟩, ⟨[3, 1], [5, 8, 0]⟩))
      ∧ getRow (⟨[3, 1], [5, 8, 0]⟩ : Tensor) 2 = [0]
      ∧ getRow (⟨[3, 1], [5, 7, 0]⟩ : Tensor) 2 = [0]
      ∧ getRow (⟨[3, 1], [5, 7, 0]⟩ : Tensor) 2 ≠ getRow (⟨[3, 1], [5, 7, 9]⟩ : Tensor) 0
      ∧ getRow (⟨[3, 1], [5, 7, 0]⟩ : Tensor) 2 ≠ getRow (⟨[3, 1], [5, 7, 9]⟩ : Tensor) 1
      ∧ getRow (⟨[3, 1], [5, 7, 0]⟩ : Tensor) 2 ≠ getRow (⟨[3, 1], [5, 7, 9]⟩ : Tensor) 2 :=
  ⟨by norm_num [lloyd, lloyd_nnz, lloyd_nnz_fixed_0_center, lloyd_fixed_nnz, lloydLoop, lloydLoopFixed,
    lloydStep, lloydStepFixed, forgy_initialization, forgy_initialization_nnz,
    forgy_initialization_fixed_nnz, nnzIndexOf, indexT, cat0, nonzeroT, viewFlat,
    squeezeLast, sliceAssignRows, choose_centers,
    transpose2, unsqueeze0, unsqueezeLast, tsub, tmul,
    ebin, bcastShape, bcastRev, Tensor.ofFn, allIndices, Tensor.get, Tensor.getB, bIdx,
    flatIdx, tsquare, squeezeAll, argminDim, argminIdx, eraseAt, insertAt, sumDim,
    unsqueeze1, scatter1, zerosT, qToNat, recipNZ, sqrtQ, List.range_succ,
    Bind.bind, Except.bind], by norm_num [lloyd, lloyd_nnz, lloyd_nnz_fixed_0_center, lloyd_fixed_nnz, lloydLoop, lloydLoopFixed,
    lloydStep, lloydStepFixed, forgy_initialization, forgy_initialization_nnz,
    forgy_initialization_fixed_nnz, nnzIndexOf, indexT, cat0, nonzeroT, viewFlat,
    squeezeLast, sliceAssignRows, choose_centers,
    transpose2, unsqueeze0, unsqueezeLast, tsub, tmul,
    ebin, bcastShape, bcastRev, Tensor.ofFn, allIndices, Tensor.get, Tensor.getB, bIdx,
    flatIdx, tsquare, squeezeAll, argminDim, argminIdx, eraseAt, insertAt, sumDim,
    unsqueeze1, scatter1, zerosT, qToNat, recipNZ, sqrtQ, List.range_succ,
    Bind.bind, Except.bind],
   by decide, by decide, by decide, by decide, by decide⟩

/-- C3: amended claim. Whenever forgy_initialization_nnz returns centers, the
last row is the zero row [0] (zero_el is appended after the K-1 drawn rows),
so the center pinned by lloyd_nnz_fixed_0_center is the zero vector at
initialization, exactly as in the sibling lloyd_nnz initialization. -/
theorem C3_amended (X Xp : Tensor) (perm : List Nat) (K : Nat) (c : Tensor)
    (hwf : X.data.length = X.shape.prod)
    (h : forgy_initialization_nnz X Xp perm K = .ok c) :
    ∃ m, c.shape = [m + 1, 1] ∧ getRow c m = [0] := by
  unfold forgy_initialization_nnz at h
  simp only [bind_ok_iff] at h
  obtain ⟨idx0, h1, sel, h2, h3⟩ := h
  have hidxwf : (Tensor.mk [(if K = 0 then perm.dropLast else perm.take (K - 1)).length]
      ((if K = 0 then perm.dropLast else perm.take (K - 1)).map (fun i : Nat => (i : ℚ)))).data.length
      = (Tensor.mk [(if K = 0 then perm.dropLast else perm.take (K - 1)).length]
          ((if K = 0 then perm.dropLast else perm.take (K - 1)).map (fun i : Nat => (i : ℚ)))).shape.prod := by
    simp
  have hw1 := indexT_wf _ _ _ (wf_nonzeroT (viewFlat Xp)) hidxwf h1
  have hw2 := indexT_wf _ _ _ hwf (wf_squeezeAll _ hw1.2) h2
  unfold cat0 at h3
  split at h3
  · rename_i m r1 n r2 heq1 heq2
    split at h3
    · rename_i hr1
      simp only [Except.ok.injEq] at h3
      have heq2b : n = 1 ∧ r2 = [1] := by
        have := heq2
        simp only [mk_shape, List.cons.injEq] at this
        exact ⟨this.1.symm, this.2.symm⟩
      have hn : n = 1 := heq2b.1
      have hr1b : r1 = [1] := by rw [hr1, heq2b.2]
      have hsellen : sel.data.length = m := by
        rw [hw2.2, heq1, hr1b]
        simp
      refine ⟨m, ?_, ?_⟩
      · rw [← h3]
        simp only [mk_shape]
        rw [hn, hr1b]
      · unfold getRow
        rw [← h3]
        simp only [mk_shape, mk_data]
        rw [hn, hr1b]
        simp only [List.tail_cons, List.prod_cons, List.prod_nil, mul_one, one_mul]
        rw [← hsellen]
        rw [List.drop_left]
        rfl
    · exact absurd h3 (by simp)
  · exact absurd h3 (by simp)

theorem C3_witness :
    ∃ m, (⟨[3, 1], [5, 7, 0]⟩ : Tensor).shape = [m + 1, 1]
      ∧ getRow (⟨[3, 1], [5, 7, 0]⟩ : Tensor) m = [0] :=
  C3_amended ⟨[3, 1], [5, 7, 9]⟩ ⟨[3, 1], [1, 1, 1]⟩ [0, 1, 2] 3 ⟨[3, 1], [5, 7, 0]⟩
    (by decide) (by norm_num [lloyd, lloyd_nnz, lloyd_nnz_fixed_0_center, lloyd_fixed_nnz, lloydLoop, lloydLoopFixed,
    lloydStep, lloydStepFixed, forgy_initialization, forgy_initialization_nnz,
    forgy_initialization_fixed_nnz, nnzIndexOf, indexT, cat0, nonzeroT, viewFlat,
    squeezeLast, sliceAssignRows, choose_centers,
    transpose2, unsqueeze0, unsqueezeLast, tsub, tmul,
    ebin, bcastShape, bcastRev, Tensor.ofFn, allIndices, Tensor.get, Tensor.getB, bIdx,
    flatIdx, tsquare, squeezeAll, argminDim, argminIdx, eraseAt, insertAt, sumDim,
    unsqueeze1, scatter1, zerosT, qToNat, recipNZ, sqrtQ, List.range_succ,
    Bind.bind, Except.bind])


set_option maxHeartbeats 4000000

theorem nearest_le (x c : List ℚ) (K i k : Nat) (hk : k < K) :
    (x.getD i 0 - c.getD (nearest x c K i) 0) ^ 2 ≤ (x.getD i 0 - c.getD k 0) ^ 2 := by
  have hlt : nearest x c K i < K := nearest_lt x c K i (by omega)
  have hdef : nearest x c K i
      = argminIdx ((List.range K).map (fun k => (x.getD i 0 - c.getD k 0) ^ 2)) := rfl
  have harg := argminIdx_le ((List.range K).map (fun k => (x.getD i 0 - c.getD k 0) ^ 2)) k
    (by simpa using hk)
  rw [getD_map_range _ hk] at harg
  rw [← hdef] at harg
  rw [getD_map_range _ hlt] at harg
  exact harg

/-- C5: for every input and every number of iterations, the last (K+1-th)
center returned by lloyd_nnz_fixed_0_center equals its value at
initialization: the slice assignment `centers[:K] = ...` only overwrites the
first K rows, so the update loop never modifies the last row. -/
theorem C5_theorem (X Xp : Tensor) (perm : List Nat) (K : Nat) (tol : ℚ) (m : Nat)
    (x : List ℚ) (N : Nat) (hX : X = ⟨[N, 1], x⟩) (hN : 2 ≤ N) (hK : 1 ≤ K)
    (c0 : Tensor) (hinit : forgy_initialization_nnz X Xp perm (K + 1) = .ok c0)
    (cl0 : List ℚ) (hc0 : c0 = ⟨[K + 1, 1], cl0⟩) (hlen : cl0.length = K + 1)
    (a c : Tensor)
    (h : lloyd_nnz_fixed_0_center X Xp perm K tol m = .ok (a, c)) :
    c.shape = [K + 1, 1] ∧ getRow c K = getRow c0 K := by
  unfold lloyd_nnz_fixed_0_center at h
  rw [hinit, kbind_ok] at h
  have hloop := wrapperMatch_ok _ _ _ h
  rw [hX] at hloop
  rw [show (Tensor.mk [N, 1] x).shape.headD 0 = N from rfl] at hloop
  have hlast := lloydLoopFixed_last x N K hN hK tol (cl0.getD K 0) m (none, c0)
    ⟨cl0, hc0, hlen, rfl⟩ (some a) c hloop
  obtain ⟨cl, hcf, hlen2, hz⟩ := hlast
  constructor
  · rw [hcf]
  · rw [hcf, hc0]
    rw [getRow_mk_col (K + 1) K cl hlen2 (by omega)]
    rw [getRow_mk_col (K + 1) K cl0 hlen (by omega)]
    rw [hz]

theorem C5_witness :
    (lloyd_nnz_fixed_0_center ⟨[3, 1], [3, 5, 7]⟩ ⟨[3, 1], [1, 1, 1]⟩ [0, 1, 2] 2 (1/2) 1
        = .ok (⟨[3], [0, 1, 1]⟩, ⟨[3, 1], [3, 6, 0]⟩))
      ∧ (⟨[3, 1], [3, 6, 0]⟩ : Tensor).shape = [3, 1]
      ∧ getRow (⟨[3, 1], [3, 6, 0]⟩ : Tensor) 2 = getRow (⟨[3, 1], [3, 5, 0]⟩ : Tensor) 2 := by
  refine ⟨by norm_num [lloyd, lloyd_nnz, lloyd_nnz_fixed_0_center, lloyd_fixed_nnz, lloydLoop, lloydLoopFixed,
    lloydStep, lloydStepFixed, forgy_initialization, forgy_initialization_nnz,
    forgy_initialization_fixed_nnz, nnzIndexOf, indexT, cat0, nonzeroT, viewFlat,
    squeezeLast, sliceAssignRows, choose_centers,
    transpose2, unsqueeze0, unsqueezeLast, tsub, tmul,
    ebin, bcastShape, bcastRev, Tensor.ofFn, allIndices, Tensor.get, Tensor.getB, bIdx,
    flatIdx, tsquare, squeezeAll, argminDim, argminIdx, eraseAt, insertAt, sumDim,
    unsqueeze1, scatter1, zerosT, qToNat, toNat_ofNat_lit, qToNat_ofNat, Int.reduceToNat, recipNZ, sqrtQ, List.range_succ,
    Bind.bind, Except.bind], ?_⟩
  exact C5_theorem ⟨[3, 1], [3, 5, 7]⟩ ⟨[3, 1], [1, 1, 1]⟩ [0, 1, 2] 2 (1/2) 1
    [3, 5, 7] 3 rfl (by decide) (by decide)
    ⟨[3, 1], [3, 5, 0]⟩ (by norm_num [lloyd, lloyd_nnz, lloyd_nnz_fixed_0_center, lloyd_fixed_nnz, lloydLoop, lloydLoopFixed,
    lloydStep, lloydStepFixed, forgy_initialization, forgy_initialization_nnz,
    forgy_initialization_fixed_nnz, nnzIndexOf, indexT, cat0, nonzeroT, viewFlat,
    squeezeLast, sliceAssignRows, choose_centers,
    transpose2, unsqueeze0, unsqueezeLast, tsub, tmul,
    ebin, bcastShape, bcastRev, Tensor.ofFn, allIndices, Tensor.get, Tensor.getB, bIdx,
    flatIdx, tsquare, squeezeAll, argminDim, argminIdx, eraseAt, insertAt, sumDim,
    unsqueeze1, scatter1, zerosT, qToNat, toNat_ofNat_lit, qToNat_ofNat, Int.reduceToNat, recipNZ, sqrtQ, List.range_succ,
    Bind.bind, Except.bind])
    [3, 5, 0] rfl (by decide)
    ⟨[3], [0, 1, 1]⟩ ⟨[3, 1], [3, 6, 0]⟩ (by norm_num [lloyd, lloyd_nnz, lloyd_nnz_fixed_0_center, lloyd_fixed_nnz, lloydLoop, lloydLoopFixed,
    lloydStep, lloydStepFixed, forgy_initialization, forgy_initialization_nnz,
    forgy_initialization_fixed_nnz, nnzIndexOf, indexT, cat0, nonzeroT, viewFlat,
    squeezeLast, sliceAssignRows, choose_centers,
    transpose2, unsqueeze0, unsqueezeLast, tsub, tmul,
    ebin, bcastShape, bcastRev, Tensor.ofFn, allIndices, Tensor.get, Tensor.getB, bIdx,
    flatIdx, tsquare, squeezeAll, argminDim, argminIdx, eraseAt, insertAt, sumDim,
    unsqueeze1, scatter1, zerosT, qToNat, toNat_ofNat_lit, qToNat_ofNat, Int.reduceToNat, recipNZ, sqrtQ, List.range_succ,
    Bind.bind, Except.bind])

/-- C6: counterexample. With K = 5 requested from 3 candidates, both
forgy_initialization and forgy_initialization_nnz return normally (the python
slice clamps the index list), so the initialization functions themselves do
not fail. -/
theorem C6_counterexample :
    (forgy_initialization ⟨[3, 1], [2, 4, 9]⟩ [0, 1, 2] 5 = .ok ⟨[3, 1], [2, 4, 9]⟩)
      ∧ (forgy_initialization_nnz ⟨[3, 1], [2, 4, 9]⟩ ⟨[3, 1], [1, 1, 1]⟩ [0, 1, 2] 5
          = .ok ⟨[4, 1], [2, 4, 9, 0]⟩) := by
  constructor
  · decide
  · decide

/-- C6: amended claim. When fewer candidates than K are available the
initialization functions return normally with fewer than K centers (slicing
clamps); the failure only appears downstream, when lloyd runs the update step
against the short center matrix and the one-hot scatter rejects the
out-of-range cluster count with a shape error. -/
theorem C6_amended (x : List ℚ) (N K : Nat) (perm : List Nat) (tol : ℚ) (m : Nat)
    (hx : x.length = N) (hN : 2 ≤ N) (hNK : N < K)
    (hplen : perm.length = N) (hp : ∀ i ∈ perm, i < N) (hm : 1 ≤ m) :
    (forgy_initialization ⟨[N, 1], x⟩ perm K
        = .ok ⟨[N, 1], perm.map (fun i => x.getD i 0)⟩)
      ∧ lloyd ⟨[N, 1], x⟩ perm K tol m = .error .shapeErr := by
  have htake : perm.take K = perm := List.take_of_length_le (by omega)
  have hinit := forgy_spec x N perm K hx (by rw [htake]; exact hp)
  rw [htake, hplen] at hinit
  refine ⟨hinit, ?_⟩
  unfold lloyd
  rw [hinit, kbind_ok]
  obtain ⟨m2, rfl⟩ : ∃ m2, m = m2 + 1 := ⟨m - 1, by omega⟩
  rw [show (Tensor.mk [N, 1] x).shape.headD 0 = N from rfl]
  have hstep := lloydStep_mismatch x (perm.map (fun i => x.getD i 0)) N N K hN
    (by omega) hN (by omega) (by omega)
  unfold lloydLoop
  rw [hstep, kbind_err, kbind_err]

theorem C6_witness :
    (forgy_initialization ⟨[2, 1], [1, 2]⟩ [0, 1] 3
        = .ok ⟨[2, 1], [1, 2]⟩)
      ∧ lloyd ⟨[2, 1], [1, 2]⟩ [0, 1] 3 (1/7) 1 = .error .shapeErr := by
  have h := C6_amended [1, 2] 2 3 [0, 1] (1/7) 1 rfl (by decide) (by decide) rfl
    (by decide) (by decide)
  refine ⟨?_, h.2⟩
  have h1 := h.1
  norm_num at h1 ⊢
  exact h1

/-- C8: counterexample. A concrete lloyd run whose returned pair violates the
claim against the returned centers: point 0 is assigned to cluster 0, yet it
is strictly closer to the returned center 1 — the assignment is one step
stale with respect to the centers returned beside it. -/
theorem C8_counterexample :
    (lloyd ⟨[3, 1], [0, 1, 10]⟩ [0, 1, 2] 2 (1/10000) 1
        = .ok (⟨[3], [0, 1, 1]⟩, ⟨[2, 1], [0, 11/2]⟩))
      ∧ assignVal ⟨[3], [0, 1, 1]⟩ 1 = 1
      ∧ sqDist (getRow (⟨[3, 1], [0, 1, 10]⟩ : Tensor) 1)
            (getRow (⟨[2, 1], [0, 11/2]⟩ : Tensor) 0)
          < sqDist (getRow (⟨[3, 1], [0, 1, 10]⟩ : Tensor) 1)
            (getRow (⟨[2, 1], [0, 11/2]⟩ : Tensor) 1) := by
  refine ⟨by norm_num [lloyd, lloyd_nnz, lloyd_nnz_fixed_0_center, lloyd_fixed_nnz, lloydLoop, lloydLoopFixed,
    lloydStep, lloydStepFixed, forgy_initialization, forgy_initialization_nnz,
    forgy_initialization_fixed_nnz, nnzIndexOf, indexT, cat0, nonzeroT, viewFlat,
    squeezeLast, sliceAssignRows, choose_centers,
    transpose2, unsqueeze0, unsqueezeLast, tsub, tmul,
    ebin, bcastShape, bcastRev, Tensor.ofFn, allIndices, Tensor.get, Tensor.getB, bIdx,
    flatIdx, tsquare, squeezeAll, argminDim, argminIdx, eraseAt, insertAt, sumDim,
    unsqueeze1, scatter1, zerosT, qToNat, toNat_ofNat_lit, qToNat_ofNat, Int.reduceToNat, recipNZ, sqrtQ, List.range_succ,
    Bind.bind, Except.bind], by decide, ?_⟩
  norm_num [sqDist, getRow, Tensor.mk.injEq]

/-- C8: amended claim. The assignment returned by lloyd is nearest-center
optimal with respect to the centers of the step that produced it (the
pre-update centers): there exist centers cOld such that the assignment is
choose_centers of X against cOld and each point is at minimal squared
distance to its assigned center among all cOld rows. It is not optimal
against the post-update centers that lloyd returns. -/
theorem C8_amended (x : List ℚ) (N K : Nat) (perm : List Nat) (tol : ℚ) (m : Nat)
    (hx : x.length = N) (hN : 2 ≤ N) (hK : 2 ≤ K)
    (hp : ∀ i ∈ perm.take K, i < N) (hplen : K ≤ perm.length)
    (a c : Tensor) (h : lloyd ⟨[N, 1], x⟩ perm K tol m = .ok (a, c)) :
    ∃ cOld : Tensor, cOld.shape = [K, 1] ∧ choose_centers ⟨[N, 1], x⟩ cOld = .ok a
      ∧ ∀ i < N, ∀ k < K,
          sqDist (getRow ⟨[N, 1], x⟩ i) (getRow cOld (assignVal a i))
            ≤ sqDist (getRow ⟨[N, 1], x⟩ i) (getRow cOld k) := by
  have htklen : (perm.take K).length = K := by
    rw [List.length_take]
    omega
  have hinit := forgy_spec x N perm K hx hp
  rw [htklen] at hinit
  unfold lloyd at h
  rw [hinit, kbind_ok] at h
  have hloop := wrapperMatch_ok _ _ _ h
  rw [show (Tensor.mk [N, 1] x).shape.headD 0 = N from rfl] at hloop
  have horig := lloydLoop_origin x N K hN hK tol m
    (none, ⟨[K, 1], (perm.take K).map (fun i => x.getD i 0)⟩)
    ((perm.take K).map (fun i => x.getD i 0)) rfl
    (by rw [List.length_map, htklen]) a c hloop
  rcases horig with ⟨hcontra, _⟩ | ⟨cl, hcllen, ha, _⟩
  · exact absurd hcontra (by simp)
  · refine ⟨⟨[K, 1], cl⟩, rfl, ?_, ?_⟩
    · rw [choose_centers_spec x cl N K (by omega) hK, ha]
    · intro i hi k hk
      have hnear : assignVal a i = nearest x cl K i := by
        rw [ha]
        exact assignVal_vecT N i _ hi
      have hlt : nearest x cl K i < K := nearest_lt x cl K i (by omega)
      rw [hnear]
      rw [getRow_mk_col N i x hx hi, getRow_mk_col K _ cl hcllen hlt,
        getRow_mk_col K k cl hcllen hk]
      rw [sqDist_single, sqDist_single]
      exact nearest_le x cl K i k hk

theorem C8_witness :
    ∃ cOld : Tensor, cOld.shape = [2, 1]
      ∧ choose_centers ⟨[3, 1], [0, 1, 10]⟩ cOld = .ok ⟨[3], [0, 1, 1]⟩
      ∧ ∀ i < 3, ∀ k < 2,
          sqDist (getRow ⟨[3, 1], [0, 1, 10]⟩ i)
              (getRow cOld (assignVal ⟨[3], [0, 1, 1]⟩ i))
            ≤ sqDist (getRow ⟨[3, 1], [0, 1, 10]⟩ i) (getRow cOld k) :=
  C8_amended [0, 1, 10] 3 2 [0, 1, 2] (1/10000) 1 rfl (by decide) (by decide)
    (by decide) (by decide) ⟨[3], [0, 1, 1]⟩ ⟨[2, 1], [0, 11/2]⟩
    (by norm_num [lloyd, lloyd_nnz, lloyd_nnz_fixed_0_center, lloyd_fixed_nnz, lloydLoop, lloydLoopFixed,
    lloydStep, lloydStepFixed, forgy_initialization, forgy_initialization_nnz,
    forgy_initialization_fixed_nnz, nnzIndexOf, indexT, cat0, nonzeroT, viewFlat,
    squeezeLast, sliceAssignRows, choose_centers,
    transpose2, unsqueeze0, unsqueezeLast, tsub, tmul,
    ebin, bcastShape, bcastRev, Tensor.ofFn, allIndices, Tensor.get, Tensor.getB, bIdx,
    flatIdx, tsquare, squeezeAll, argminDim, argminIdx, eraseAt, insertAt, sumDim,
    unsqueeze1, scatter1, zerosT, qToNat, toNat_ofNat_lit, qToNat_ofNat, Int.reduceToNat, recipNZ, sqrtQ, List.range_succ,
    Bind.bind, Except.bind])

/-- C9: the assignment vector returned by lloyd_fixed_nnz has length equal to the
count of non-zero entries of Xp (not N), and it is exactly a choose_centers
assignment computed over the restricted non-zero subset of X (the rows selected
by the non-zero index list), so its entries index into that restricted subset
rather than the original N-length row space. -/
theorem C9_theorem (X Xp : Tensor) (perm : List Nat) (K : Nat) (tol : ℚ) (m : Nat)
    (x p : List ℚ) (N : Nat) (hX : X = ⟨[N, 1], x⟩) (hXp : Xp = ⟨[N, 1], p⟩)
    (hx : x.length = N) (hp : p.length = N) (hN : 2 ≤ N)
    (hcnt2 : 2 ≤ p.countP (fun q => decide (q ≠ 0))) (hK : 2 ≤ K - 1)
    (hplen : K - 1 ≤ perm.length)
    (a c : Tensor) (h : lloyd_fixed_nnz X Xp perm K tol m = .ok (a, c)) :
    a.shape = [p.countP (fun q => decide (q ≠ 0))]
      ∧ ∃ Xn cOld, indexT X (nnzIndexOf Xp) = .ok Xn
          ∧ choose_centers (squeezeLast Xn) cOld = .ok a := by
  have hK0 : K ≠ 0 := by omega
  have hsq : squeezeAll Xp = ⟨[N], p⟩ := by
    rw [hXp]
    unfold squeezeAll
    simp only [mk_shape, mk_data]
    congr 1
    simp [show N ≠ 1 by omega]
  have hvf : viewFlat Xp = ⟨[N], p⟩ := by
    rw [hXp]
    unfold viewFlat
    simp only [mk_shape, mk_data]
    congr 1
    simp
  have hnnz : nnzIndexOf Xp
      = ⟨[((List.range N).filter (fun i => decide (p.getD i 0 ≠ 0))).length, 1],
          ((List.range N).filter (fun i => decide (p.getD i 0 ≠ 0))).map
            (fun i : Nat => (i : ℚ))⟩ := by
    unfold nnzIndexOf
    rw [hsq]
    exact nonzeroT_vec p N
  have hcntfil : ((List.range N).filter (fun i => decide (p.getD i 0 ≠ 0))).length
      = p.countP (fun q => decide (q ≠ 0)) := by
    have h2 := length_filter_range p
    rw [hp] at h2
    exact h2
  have hfcnt2 : 2 ≤ ((List.range N).filter (fun i => decide (p.getD i 0 ≠ 0))).length := by
    rw [hcntfil]
    exact hcnt2
  unfold lloyd_fixed_nnz at h
  simp only [bind_ok_iff] at h
  obtain ⟨c0, hinit, Xn0, hXn0, st, hloop, hmatch⟩ := h
  obtain ⟨st1, st2⟩ := st
  cases st1 with
  | none => exact absurd hmatch (by simp)
  | some choice =>
    simp only [Except.ok.injEq, Prod.mk.injEq] at hmatch
    obtain ⟨hac, hcc⟩ := hmatch
    have hXnwf := indexT_wf X (nnzIndexOf Xp) Xn0
      (by rw [hX]; simp [hx]) (by rw [hnnz]; simp) hXn0
    have hXnshape : Xn0.shape
        = [((List.range N).filter (fun i => decide (p.getD i 0 ≠ 0))).length, 1, 1] := by
      rw [hXnwf.1, hnnz, hX]
      simp
    have hXnnz : squeezeLast Xn0
        = ⟨[((List.range N).filter (fun i => decide (p.getD i 0 ≠ 0))).length, 1],
            Xn0.data⟩ := by
      unfold squeezeLast
      rw [hXnshape]
      simp
    -- shape of the initial centers
    unfold forgy_initialization_fixed_nnz at hinit
    simp only [bind_ok_iff] at hinit
    obtain ⟨idx0, h1, h2⟩ := hinit
    rw [hvf] at h1
    have hw1 := indexT_wf (nonzeroT ⟨[N], p⟩) _ idx0 (wf_nonzeroT _) (by simp) h1
    have hidxlen : (if K = 0 then perm.dropLast else perm.take (K - 1)).length = K - 1 := by
      rw [if_neg hK0, List.length_take]
      omega
    have hidx0shape : idx0.shape = [K - 1, 1] := by
      rw [hw1.1, nonzeroT_vec]
      simp [hidxlen]
    have hsqidx : squeezeAll idx0 = ⟨[K - 1], idx0.data⟩ := by
      unfold squeezeAll
      rw [hidx0shape]
      congr 1
      simp [show K - 1 ≠ 1 by omega]
    have hw2 := indexT_wf X (squeezeAll idx0) c0 (by rw [hX]; simp [hx])
      (wf_squeezeAll _ hw1.2) h2
    have hc0shape : c0.shape = [K - 1, 1] := by
      rw [hw2.1, hsqidx, hX]
      simp
    have hc0len : c0.data.length = K - 1 := by
      rw [hw2.2, hc0shape]
      simp
    -- run the loop origin lemma over the restricted data
    rw [hnnz] at hloop
    simp only [mk_shape, List.headD_cons] at hloop
    rw [hXnnz] at hloop
    have hc0eta : c0 = ⟨[K - 1, 1], c0.data⟩ := by
      rw [← hc0shape]
    have horig := lloydLoop_origin Xn0.data
      ((List.range N).filter (fun i => decide (p.getD i 0 ≠ 0))).length (K - 1)
      hfcnt2 hK tol m (none, c0) c0.data (by rw [← hc0eta]) hc0len choice st2 hloop
    rcases horig with ⟨hcontra, _⟩ | ⟨cl, hcllen, hachoice, _⟩
    · exact absurd hcontra (by simp)
    · constructor
      · rw [← hac, hachoice, vecT_shape, hcntfil]
      · refine ⟨Xn0, ⟨[K - 1, 1], cl⟩, hXn0, ?_⟩
        rw [hXnnz]
        rw [choose_centers_spec Xn0.data cl
          ((List.range N).filter (fun i => decide (p.getD i 0 ≠ 0))).length (K - 1)
          (by omega) hK]
        rw [← hac, hachoice]

theorem C9_witness :
    lloyd_fixed_nnz ⟨[4, 1], [9, 3, 5, 7]⟩ ⟨[4, 1], [0, 1, 1, 1]⟩ [0, 1, 2] 3 (1/100) 1
        = .ok (⟨[3], [0, 1, 1]⟩, ⟨[2, 1], [3, 6]⟩)
      ∧ ((⟨[3], [0, 1, 1]⟩ : Tensor).shape
          = [List.countP (fun q => decide (q ≠ 0)) ([0, 1, 1, 1] : List ℚ)]
        ∧ ∃ Xn cOld,
            indexT ⟨[4, 1], [9, 3, 5, 7]⟩ (nnzIndexOf ⟨[4, 1], [0, 1, 1, 1]⟩) = .ok Xn
              ∧ choose_centers (squeezeLast Xn) cOld = .ok ⟨[3], [0, 1, 1]⟩) := by
  have hrun : lloyd_fixed_nnz ⟨[4, 1], [9, 3, 5, 7]⟩ ⟨[4, 1], [0, 1, 1, 1]⟩ [0, 1, 2] 3
      (1/100) 1 = .ok (⟨[3], [0, 1, 1]⟩, ⟨[2, 1], [3, 6]⟩) := by
    norm_num [qToNat_cast, qToNat_ratOfNat, qToNat_zero, qToNat_one, lloyd, lloyd_nnz, lloyd_nnz_fixed_0_center, lloyd_fixed_nnz, lloydLoop, lloydLoopFixed, lloydStep, lloydStepFixed, forgy_initialization, forgy_initialization_nnz, forgy_initialization_fixed_nnz, nnzIndexOf, indexT, cat0, nonzeroT, viewFlat, squeezeLast, sliceAssignRows, choose_centers, transpose2, unsqueeze0, unsqueezeLast, tsub, tmul, ebin, bcastShape, bcastRev, Tensor.ofFn, allIndices, Tensor.get, Tensor.getB, bIdx, flatIdx, tsquare, squeezeAll, argminDim, argminIdx, eraseAt, insertAt, sumDim, unsqueeze1, scatter1, zerosT, toNat_ofNat_lit, qToNat_ofNat, Int.reduceToNat, recipNZ, sqrtQ, List.range_succ, Bind.bind, Except.bind]
    repeat
      rw [qToNat_ratOfNat]
      norm_num [qToNat_cast, qToNat_ratOfNat, qToNat_zero, qToNat_one, lloyd, lloyd_nnz, lloyd_nnz_fixed_0_center, lloyd_fixed_nnz, lloydLoop, lloydLoopFixed, lloydStep, lloydStepFixed, forgy_initialization, forgy_initialization_nnz, forgy_initialization_fixed_nnz, nnzIndexOf, indexT, cat0, nonzeroT, viewFlat, squeezeLast, sliceAssignRows, choose_centers, transpose2, unsqueeze0, unsqueezeLast, tsub, tmul, ebin, bcastShape, bcastRev, Tensor.ofFn, allIndices, Tensor.get, Tensor.getB, bIdx, flatIdx, tsquare, squeezeAll, argminDim, argminIdx, eraseAt, insertAt, sumDim, unsqueeze1, scatter1, zerosT, toNat_ofNat_lit, qToNat_ofNat, Int.reduceToNat, recipNZ, sqrtQ, List.range_succ, Bind.bind, Except.bind]
  exact ⟨hrun, C9_theorem ⟨[4, 1], [9, 3, 5, 7]⟩ ⟨[4, 1], [0, 1, 1, 1]⟩ [0, 1, 2] 3
    (1/100) 1 [9, 3, 5, 7] [0, 1, 1, 1] 4 rfl rfl (by decide) (by decide) (by decide)
    (by norm_num [List.countP, List.countP.go]) (by decide) (by decide)
    ⟨[3], [0, 1, 1]⟩ ⟨[2, 1], [3, 6]⟩ hrun⟩

theorem bcast_Nd1_1dK (N d K : Nat) :
    bcastShape [N, d, 1] [1, d, K] = some [N, d, K] := by
  by_cases hN : N = 1 <;> by_cases hK : K = 1 <;>
    simp [bcastShape, bcastRev, hN, hK]

theorem choose_centers_dge2_big (x cd : List ℚ) (N d K : Nat)
    (hN : 2 ≤ N) (hd : 2 ≤ d) (hK : 2 ≤ K) :
    ∃ ch : Tensor, choose_centers ⟨[N, d], x⟩ ⟨[K, d], cd⟩ = .ok ch
      ∧ ch.shape = [N, K] := by
  unfold choose_centers
  simp only [mk_shape]
  simp only [if_true]
  have ht : transpose2 ⟨[K, d], cd⟩
      = .ok (Tensor.ofFn [d, K]
          (fun ix => Tensor.get ⟨[K, d], cd⟩ [ix.getD 1 0, ix.getD 0 0])) := rfl
  rw [ht, kbind_ok]
  have hsub : tsub (unsqueezeLast ⟨[N, d], x⟩)
        (unsqueeze0 (Tensor.ofFn [d, K]
          (fun ix => Tensor.get ⟨[K, d], cd⟩ [ix.getD 1 0, ix.getD 0 0])))
      = .ok (Tensor.ofFn [N, d, K]
          (fun ix => (unsqueezeLast ⟨[N, d], x⟩).getB ix -
            (unsqueeze0 (Tensor.ofFn [d, K]
              (fun ix => Tensor.get ⟨[K, d], cd⟩ [ix.getD 1 0, ix.getD 0 0]))).getB ix)) := by
    apply ebin_eq
    show bcastShape ([N, d] ++ [1]) (1 :: [d, K]) = some [N, d, K]
    exact bcast_Nd1_1dK N d K
  rw [hsub, kbind_ok]
  have hsq : (squeezeAll (tsquare (Tensor.ofFn [N, d, K]
        (fun ix => (unsqueezeLast ⟨[N, d], x⟩).getB ix -
          (unsqueeze0 (Tensor.ofFn [d, K]
            (fun ix => Tensor.get ⟨[K, d], cd⟩ [ix.getD 1 0, ix.getD 0 0]))).getB ix)))).shape
      = [N, d, K] := by
    unfold squeezeAll tsquare
    simp only [mk_shape, ofFn_shape]
    simp [show N ≠ 1 by omega, show d ≠ 1 by omega, show K ≠ 1 by omega]
  unfold argminDim
  rw [if_pos (by rw [hsq]; exact ⟨by simp, by simp [List.getD]; omega⟩)]
  refine ⟨_, rfl, ?_⟩
  rw [ofFn_shape, hsq]
  simp [eraseAt]

theorem choose_centers_dge2_one (x cd : List ℚ) (d K : Nat)
    (hd : 2 ≤ d) (hK : 2 ≤ K) :
    ∃ ch : Tensor, choose_centers ⟨[1, d], x⟩ ⟨[K, d], cd⟩ = .ok ch
      ∧ ch.shape = [d] := by
  unfold choose_centers
  simp only [mk_shape]
  simp only [if_true]
  have ht : transpose2 ⟨[K, d], cd⟩
      = .ok (Tensor.ofFn [d, K]
          (fun ix => Tensor.get ⟨[K, d], cd⟩ [ix.getD 1 0, ix.getD 0 0])) := rfl
  rw [ht, kbind_ok]
  have hsub : tsub (unsqueezeLast ⟨[1, d], x⟩)
        (unsqueeze0 (Tensor.ofFn [d, K]
          (fun ix => Tensor.get ⟨[K, d], cd⟩ [ix.getD 1 0, ix.getD 0 0])))
      = .ok (Tensor.ofFn [1, d, K]
          (fun ix => (unsqueezeLast ⟨[1, d], x⟩).getB ix -
            (unsqueeze0 (Tensor.ofFn [d, K]
              (fun ix => Tensor.get ⟨[K, d], cd⟩ [ix.getD 1 0, ix.getD 0 0]))).getB ix)) := by
    apply ebin_eq
    show bcastShape ([1, d] ++ [1]) (1 :: [d, K]) = some [1, d, K]
    exact bcast_Nd1_1dK 1 d K
  rw [hsub, kbind_ok]
  have hsq : (squeezeAll (tsquare (Tensor.ofFn [1, d, K]
        (fun ix => (unsqueezeLast ⟨[1, d], x⟩).getB ix -
          (unsqueeze0 (Tensor.ofFn [d, K]
            (fun ix => Tensor.get ⟨[K, d], cd⟩ [ix.getD 1 0, ix.getD 0 0]))).getB ix)))).shape
      = [d, K] := by
    unfold squeezeAll tsquare
    simp only [mk_shape, ofFn_shape]
    simp [show d ≠ 1 by omega, show K ≠ 1 by omega]
  unfold argminDim
  rw [if_pos (by rw [hsq]; exact ⟨by simp, by simp [List.getD]; omega⟩)]
  refine ⟨_, rfl, ?_⟩
  rw [ofFn_shape, hsq]
  simp [eraseAt]

theorem lloydStep_d_err (x cd : List ℚ) (N d K : Nat)
    (hN : 1 ≤ N) (hd : 2 ≤ d) (hK : 2 ≤ K) :
    ∃ e, lloydStep ⟨[N, d], x⟩ N K ⟨[K, d], cd⟩ = .error e := by
  rcases Nat.lt_or_ge N 2 with hN2 | hN2
  · have hN1 : N = 1 := by omega
    subst hN1
    obtain ⟨ch, hch, hsh⟩ := choose_centers_dge2_one x cd d K hd hK
    refine ⟨.indexErr, ?_⟩
    unfold lloydStep
    rw [hch, kbind_ok]
    obtain ⟨chs, chd⟩ := ch
    simp only [mk_shape] at hsh
    subst hsh
    have hu : unsqueeze1 ⟨[d], chd⟩ = .ok ⟨[d, 1], chd⟩ := rfl
    rw [hu, kbind_ok]
    have hs : scatter1 (zerosT 1 K) ⟨[d, 1], chd⟩ = .error .indexErr := by
      unfold scatter1 zerosT
      simp only [mk_shape, mk_data]
      rw [if_neg (fun hcon => absurd hcon.1 (by omega))]
    rw [hs, kbind_err]
  · obtain ⟨ch, hch, hsh⟩ := choose_centers_dge2_big x cd N d K hN2 hd hK
    refine ⟨.shapeErr, ?_⟩
    unfold lloydStep
    rw [hch, kbind_ok]
    obtain ⟨chs, chd⟩ := ch
    simp only [mk_shape] at hsh
    subst hsh
    have hu : unsqueeze1 ⟨[N, K], chd⟩ = .ok ⟨[N, 1, K], chd⟩ := rfl
    rw [hu, kbind_ok]
    have hs : scatter1 (zerosT N K) ⟨[N, 1, K], chd⟩ = .error .shapeErr := rfl
    rw [hs, kbind_err]

/-- C10: amended safety property. The module is not total exactly for d = 1:
for data of shape N x d with d >= 2, whenever K >= 2 (and the drawn indices are
valid) lloyd fails with an error, but the failure is at the one-hot scatter
(rank or bound mismatch of the index tensor), not at the elementwise product
X * one_hot, which broadcasts fine; and for K = 1 lloyd can return a
well-formed result even with d = 2, so d = 1 is not necessary for a normal
return. -/
theorem C10_amended (x : List ℚ) (perm : List Nat) (N d K : Nat) (tol : ℚ) (m : Nat)
    (hd : 2 ≤ d) (hK : 2 ≤ K) (hN : 1 ≤ N)
    (hperm : K ≤ perm.length) (hpv : ∀ i ∈ perm.take K, i < N) (hm : 1 ≤ m) :
    ∃ e, lloyd ⟨[N, d], x⟩ perm K tol m = .error e := by
  have hlen : (perm.take K).length = K := by rw [List.length_take]; omega
  have hcond : ((perm.take K).map (fun i : Nat => (i : ℚ))).all
      (fun q => decide (0 ≤ q ∧ qToNat q < N)) = true := by
    rw [List.all_eq_true]
    intro q hq
    obtain ⟨i, hi, rfl⟩ := List.mem_map.mp hq
    simp only [decide_eq_true_eq]
    exact ⟨Nat.cast_nonneg i, by rw [qToNat_cast]; exact hpv i hi⟩
  have hforgy : ∃ cdd, forgy_initialization ⟨[N, d], x⟩ perm K = .ok ⟨[K, d], cdd⟩ := by
    unfold forgy_initialization indexT
    simp only [mk_shape, mk_data]
    rw [if_pos hcond]
    rw [show [(perm.take K).length] ++ [d] = [K, d] from by simp [hlen]]
    exact ⟨_, rfl⟩
  obtain ⟨cdd, hforgy⟩ := hforgy
  obtain ⟨e, hstep⟩ := lloydStep_d_err x cdd N d K hN hd hK
  obtain ⟨mm, rfl⟩ : ∃ mm, m = mm + 1 := ⟨m - 1, by omega⟩
  refine ⟨e, ?_⟩
  unfold lloyd
  rw [hforgy, kbind_ok]
  simp only [mk_shape, List.headD_cons]
  have hloop : lloydLoop ⟨[N, d], x⟩ N K tol (mm + 1) (none, ⟨[K, d], cdd⟩)
      = .error e := by
    simp only [lloydLoop]
    rw [hstep, kbind_err]
  rw [hloop, kbind_err]

/-- C10: counterexample. The elementwise product of a 2-by-2 data matrix with
an N-by-K one-hot of K = 1 broadcasts fine, and a d = 2, K = 1 lloyd call
returns a well-formed result, so the product is not always undefined for
d >= 2 and totality is not restricted to d = 1. -/
theorem C10_counterexample :
    tmul ⟨[2, 2], [1, 2, 3, 4]⟩ (zerosT 2 1) = .ok ⟨[2, 2], [0, 0, 0, 0]⟩
      ∧ lloyd ⟨[2, 2], [0, 5, 0, 7]⟩ [0, 1] 1 1000 1
          = .ok (⟨[2], [0, 0]⟩, ⟨[2, 1], [0, 6]⟩) := by
  constructor
  · norm_num [qToNat_cast, qToNat_ratOfNat, qToNat_zero, qToNat_one, lloyd, lloyd_nnz, lloyd_nnz_fixed_0_center, lloyd_fixed_nnz, lloydLoop, lloydLoopFixed, lloydStep, lloydStepFixed, forgy_initialization, forgy_initialization_nnz, forgy_initialization_fixed_nnz, nnzIndexOf, indexT, cat0, nonzeroT, viewFlat, squeezeLast, sliceAssignRows, choose_centers, transpose2, unsqueeze0, unsqueezeLast, tsub, tmul, ebin, bcastShape, bcastRev, Tensor.ofFn, allIndices, Tensor.get, Tensor.getB, bIdx, flatIdx, tsquare, squeezeAll, argminDim, argminIdx, eraseAt, insertAt, sumDim, unsqueeze1, scatter1, zerosT, toNat_ofNat_lit, qToNat_ofNat, Int.reduceToNat, recipNZ, sqrtQ, List.range_succ, Bind.bind, Except.bind]
  · norm_num [qToNat_cast, qToNat_ratOfNat, qToNat_zero, qToNat_one, lloyd, lloyd_nnz, lloyd_nnz_fixed_0_center, lloyd_fixed_nnz, lloydLoop, lloydLoopFixed, lloydStep, lloydStepFixed, forgy_initialization, forgy_initialization_nnz, forgy_initialization_fixed_nnz, nnzIndexOf, indexT, cat0, nonzeroT, viewFlat, squeezeLast, sliceAssignRows, choose_centers, transpose2, unsqueeze0, unsqueezeLast, tsub, tmul, ebin, bcastShape, bcastRev, Tensor.ofFn, allIndices, Tensor.get, Tensor.getB, bIdx, flatIdx, tsquare, squeezeAll, argminDim, argminIdx, eraseAt, insertAt, sumDim, unsqueeze1, scatter1, zerosT, toNat_ofNat_lit, qToNat_ofNat, Int.reduceToNat, recipNZ, sqrtQ, List.range_succ, Bind.bind, Except.bind]

theorem C10_witness :
    ∃ e, lloyd ⟨[2, 2], [0, 5, 0, 7]⟩ [0, 1] 2 (1/1000) 1 = .error e :=
  C10_amended [0, 5, 0, 7] [0, 1] 2 2 2 (1/1000) 1 (by decide) (by decide) (by decide)
    (by decide) (by decide) (by decide)
